import Mathlib

/-!
# Verification of the Rummikub solver (Tile / Meld / Rack / Board / Solver)

A shallow embedding of the move-finding engine of the Rummikub repository:
`Tile.py`, `Meld.py`, `Rack.py`, `Board.py` and `Solver.py` are translated
into executable Lean definitions, and the specification's claims about them
are settled as theorems.

Modelling conventions, all taken from the Python source:
* A `Tile` is a record of color, value and joker flag; jokers carry
  color `jokerc` and value 30 (`Tile.__init__`).
* Python's `list.sort` / `sorted` on tiles compares `(val, color)` tuples
  (`Tile.__lt__`); colors are the strings "Black" < "Blue" < "Joker"
  < "Orange" < "Red" in string order, which `TColor.srank` reproduces.
* Python `dict` iteration is insertion order (first occurrence of each key),
  reproduced by `dedupF`.
* CPython iterates a `set` of small non-negative ints in ascending numeric
  order; the solver's `avail_rack_indices` / `avail_loose_indices` sets are
  therefore modelled as ascending lists of indices.
* The iteration order of the set difference `all_colors - existing_colors`
  in `Solver._get_joker_identity` is modelled as the palette literal order
  Red, Orange, Blue, Black; no claim below depends on which missing color
  is picked, only on whether one is.
* A `Meld` is its list of tiles; a `Board` is its list of melds; in-place
  mutation is modelled by state passing.
-/

inductive TColor
  | black
  | blue
  | jokerc
  | orange
  | red
deriving DecidableEq, Repr

/-- Position of a color in Python string order
("Black" < "Blue" < "Joker" < "Orange" < "Red"). -/
def TColor.srank : TColor → Nat
  | .black => 0
  | .blue => 1
  | .jokerc => 2
  | .orange => 3
  | .red => 4

structure Tile where
  color : TColor
  val : Nat
  is_joker : Bool
deriving DecidableEq, Repr

/-- A numbered tile, as built by `Tile.__init__` with a color and value. -/
def T (c : TColor) (v : Nat) : Tile := ⟨c, v, false⟩

/-- The joker tile: color "Joker", value 30 (`Tile.__init__` with is_joker). -/
def JK : Tile := ⟨.jokerc, 30, true⟩

instance : Inhabited Tile := ⟨JK⟩

/-- `Tile.__lt__` compares `(val, color)` tuples; this is the corresponding
total `≤` used to model Python's stable sort. -/
def tleB (a b : Tile) : Bool :=
  decide (a.val < b.val) ||
    (a.val == b.val && decide (a.color.srank ≤ b.color.srank))

def tle (a b : Tile) : Prop := tleB a b = true

instance : DecidableRel tle := fun a b => by unfold tle; infer_instance

instance : IsTotal Tile tle :=
  ⟨fun a b => by
    simp only [tle, tleB, Bool.or_eq_true, Bool.and_eq_true, decide_eq_true_eq,
      beq_iff_eq]
    omega⟩

instance : IsTrans Tile tle :=
  ⟨fun a b c hab hbc => by
    simp only [tle, tleB, Bool.or_eq_true, Bool.and_eq_true, decide_eq_true_eq,
      beq_iff_eq] at hab hbc ⊢
    omega⟩

/-- Python's `list.sort()` / `sorted` on tiles (`Tile.__lt__` order). -/
def sortT (l : List Tile) : List Tile := List.insertionSort tle l

/-- First-occurrence deduplication, the key order of a Python `dict`. -/
def dedupFGo [DecidableEq α] : List α → List α → List α
  | [], _ => []
  | a :: l, seen => if a ∈ seen then dedupFGo l seen else a :: dedupFGo l (a :: seen)

def dedupF [DecidableEq α] (l : List α) : List α := dedupFGo l []

/-! ## Meld.py — the validator -/

/-- The real (non-joker) tiles of a meld, in order (`Meld.is_valid`). -/
def realTiles (ts : List Tile) : List Tile := ts.filter (fun t => !t.is_joker)

/-- The jokers of a meld (`Meld.is_valid`). -/
def jokerTiles (ts : List Tile) : List Tile := ts.filter (fun t => t.is_joker)

/-- `Meld._group`: total size 3 or 4 and no duplicate color among real tiles
(`len(colors) != len(set(colors))` is rendered by `dedup` length). -/
def group_check (real : List Tile) (num_jokers : Nat) : Bool :=
  ((real.length + num_jokers == 3) || (real.length + num_jokers == 4)) &&
    ((real.map Tile.color).dedup.length == (real.map Tile.color).length)

/-- The gap walk of `Meld._run`: `none` when two consecutive values are
equal (a duplicate in a run), otherwise the number of jokers needed to
bridge internal holes, summed as `gap - 1` in Python integer arithmetic. -/
def run_required : List Nat → Option Int
  | [] => some 0
  | [_] => some 0
  | a :: b :: r =>
    if (b : Int) - a = 0 then none
    else (run_required (b :: r)).map (· + ((b : Int) - a - 1))

/-- `Meld._run`: valid iff no duplicate value and enough jokers. -/
def run_check (vals : List Nat) (num_jokers : Nat) : Bool :=
  match run_required vals with
  | none => false
  | some needed => decide ((num_jokers : Int) ≥ needed)

/-- The body of `Meld.is_valid` after the sort: the traffic-cop routing of a
sorted tile list into `_group` or `_run`. `len(set(..)) == 1` is rendered by
`dedup` length. -/
def validOnSorted (s : List Tile) : Bool :=
  let real := realTiles s
  let num_jokers := (jokerTiles s).length
  if real.isEmpty then false
  else if (real.map Tile.val).dedup.length == 1 then
    group_check real num_jokers
  else if (real.map Tile.color).dedup.length == 1 then
    run_check (real.map Tile.val) num_jokers
  else false

/-- `Meld.is_valid` with its side effect made explicit: the boolean result
together with the meld's tile list after the call (sorted in place unless
the early minimum-size return fired first). -/
def meldCheck (ts : List Tile) : Bool × List Tile :=
  if ts.length < 3 then (false, ts) else (validOnSorted (sortT ts), sortT ts)

/-- `Meld.is_valid`, result only. -/
def is_valid (ts : List Tile) : Bool := (meldCheck ts).1

/-! ## Rack.py -/

/-- The removal loop of `Rack.remove_tiles`: walk the requested tiles,
removing the first matching instance from the backup copy; `none` when a
requested tile is not found (the Python `ValueError` branch). -/
def removeTilesGo : List Tile → List Tile → Option (List Tile)
  | acc, [] => some acc
  | acc, t :: ts => if t ∈ acc then removeTilesGo (acc.erase t) ts else none

/-- `Rack.remove_tiles`: on success the rack becomes the reduced backup,
re-sorted; on failure the rack is left untouched and `False` is returned. -/
def remove_tiles (rack : List Tile) (tiles_to_remove : List Tile) : Bool × List Tile :=
  match removeTilesGo rack tiles_to_remove with
  | some backup => (true, sortT backup)
  | none => (false, rack)

/-! ## Solver.py — the meld generator `_find_valid_sets_in_pool` -/

/-- The `unique_color_tiles` loop: keep the first tile of each distinct
color, in pool order. -/
def firstUniqueByColorGo : List Tile → List TColor → List Tile
  | [], _ => []
  | t :: ts, seen =>
    if t.color ∈ seen then firstUniqueByColorGo ts seen
    else t :: firstUniqueByColorGo ts (t.color :: seen)

def firstUniqueByColor (l : List Tile) : List Tile := firstUniqueByColorGo l []

/-- Keys of the `by_val` defaultdict, in insertion (first occurrence) order. -/
def valKeys (pool : List Tile) : List Nat :=
  dedupF ((pool.filter (fun t => !t.is_joker)).map Tile.val)

/-- Keys of the `by_color` defaultdict, in insertion order. -/
def colorKeys (pool : List Tile) : List TColor :=
  dedupF ((pool.filter (fun t => !t.is_joker)).map Tile.color)

/-- The group melds emitted for one value bucket of `by_val`. -/
def groupEmit (pool : List Tile) (jokers : List Tile) (v : Nat) : List (List Tile) :=
  let tiles := pool.filter (fun t => !t.is_joker && t.val == v)
  if 3 ≤ tiles.length + jokers.length then
    let uniq := firstUniqueByColor tiles
    ((if 3 ≤ uniq.length then [uniq.take 3] else []) ++
     (if uniq.length == 4 then [uniq.take 4] else []) ++
     (if uniq.length == 2 && !jokers.isEmpty then [uniq ++ [jokers.headI]] else []))
  else []

/-- Python's stable sort with `key=lambda x: x.val`. -/
def sortByVal (l : List Tile) : List Tile :=
  List.insertionSort (fun a b => a.val ≤ b.val) l

/-- The consecutive-sequence scan of the run loop: given the (sorted) tiles
of one color, returns the final `current_run` and the melds emitted along
the way (a joker-bridged run at a gap of two, and each completed
`current_run` of length at least 3). -/
def runScanGo (jokers : List Tile) : List Tile → List Tile → List Tile × List (List Tile)
  | [], cur => (cur, [])
  | t :: rest, cur =>
    match cur.getLast? with
    | none => runScanGo jokers rest [t]
    | some last =>
      if t.val == last.val + 1 then runScanGo jokers rest (cur ++ [t])
      else if t.val == last.val then runScanGo jokers rest cur
      else
        let e1 : List (List Tile) :=
          if !jokers.isEmpty && t.val == last.val + 2 then
            (if 3 ≤ cur.length + 2 then [cur ++ [jokers.headI, t]] else [])
          else []
        let e2 : List (List Tile) := if 3 ≤ cur.length then [cur] else []
        let (fc, es) := runScanGo jokers rest [t]
        (fc, e1 ++ e2 ++ es)

/-- The run melds emitted for one color bucket of `by_color`, including the
final flush of `current_run` after the loop. -/
def runEmit (pool : List Tile) (jokers : List Tile) (c : TColor) : List (List Tile) :=
  let tiles := sortByVal (pool.filter (fun t => !t.is_joker && t.color == c))
  if tiles.length < 2 && jokers.isEmpty then []
  else
    let (cur, es) := runScanGo jokers tiles []
    es ++ (if 3 ≤ cur.length then [cur] else [])

/-- `Solver._find_valid_sets_in_pool`: all group melds (per value bucket, in
dict order) followed by all run melds (per color bucket, in dict order). -/
def find_valid_sets_in_pool (pool : List Tile) : List (List Tile) :=
  let jokers := pool.filter (fun t => t.is_joker)
  ((valKeys pool).map (groupEmit pool jokers)).flatten ++
    ((colorKeys pool).map (runEmit pool jokers)).flatten

/-! ## Solver.py — phase 1: joker retrieval -/

/-- `Solver._get_joker_identity`. The group branch follows the source: the
`missing` list is the palette minus the meld's real colors (palette order
modelling the Python set difference), and its first element is returned
whenever it is nonempty. Otherwise run inference looks at the immediate
left, then right, neighbor. Values are `Int` to mirror Python integers. -/
def get_joker_identity (tiles : List Tile) (joker_idx : Nat) : Option (TColor × Int) :=
  let realN := tiles.filter (fun t => !t.is_joker)
  if realN.isEmpty then none
  else if (realN.map Tile.val).dedup.length = 1 ∧ 1 < (realN.map Tile.color).dedup.length then
    let group_val : Int := (realN.headI).val
    let existing := (tiles.filter (fun t => !t.is_joker)).map Tile.color
    let missing := [TColor.red, TColor.orange, TColor.blue, TColor.black].filter
      (fun c => !(existing.contains c))
    match missing with
    | [] => none
    | c :: _ => some (c, group_val)
  else
    let lookRight : Option (TColor × Int) :=
      if joker_idx < tiles.length - 1 then
        let right := tiles.getD (joker_idx + 1) JK
        if !right.is_joker then some (right.color, (right.val : Int) - 1) else none
      else none
    if 0 < joker_idx then
      let left := tiles.getD (joker_idx - 1) JK
      if !left.is_joker then some (left.color, (left.val : Int) + 1) else lookRight
    else lookRight

/-- Indices of the jokers in a meld (`joker_indices` in phase 1). -/
def jokerIndices (tiles : List Tile) : List Nat :=
  (tiles.enum.filter (fun p => p.2.is_joker)).map Prod.fst

/-- The inner loop of phase 1 for one meld: try each joker index in turn;
on the first index whose identity is deduced and matched by a rack tile,
perform the swap and stop (the `break`). -/
def phase1Try (rack tiles : List Tile) : List Nat → List Tile × List Tile
  | [] => (rack, tiles)
  | j :: rest =>
    match get_joker_identity tiles j with
    | none => phase1Try rack tiles rest
    | some cv =>
      match rack.findIdx?
          (fun rt => !rt.is_joker && rt.color == cv.1 && ((rt.val : Int) == cv.2)) with
      | some i => (rack.eraseIdx i ++ [tiles.getD j JK], tiles.set j (rack.getD i JK))
      | none => phase1Try rack tiles rest

/-- Phase 1 body for one meld: melds without a joker are skipped. -/
def phase1Meld (rack tiles : List Tile) : List Tile × List Tile :=
  if tiles.any (fun t => t.is_joker) then phase1Try rack tiles (jokerIndices tiles)
  else (rack, tiles)

/-- `Solver._phase_joker_retrieval`: fold over the board melds, threading
the rack. -/
def phase_joker_retrieval (rack : List Tile) (melds : List (List Tile)) :
    List Tile × List (List Tile) :=
  melds.foldl (fun acc m =>
    let r2 := phase1Meld acc.1 m
    (r2.1, acc.2 ++ [r2.2])) (rack, [])

/-! ## Solver.py — phase 2: rack-only melds -/

/-- The tile-matching test of phase 2's availability check. -/
def tMatch2 (t rt : Tile) : Bool :=
  (t.is_joker && rt.is_joker) ||
    (!t.is_joker && !rt.is_joker && t.val == rt.val && t.color == rt.color)

/-- Phase 2's availability loop: consume one matching rack tile per needed
tile from the shrinking temp copy; `none` when a needed tile is missing.
Removing the matched tiles from the real rack afterwards produces exactly
the remaining temp copy, which is returned. -/
def matchTiles : List Tile → List Tile → Option (List Tile)
  | [], temp => some temp
  | t :: ts, temp =>
    match temp.findIdx? (fun rt => tMatch2 t rt) with
    | some i => matchTiles ts (temp.eraseIdx i)
    | none => none

/-- Python's stable `sort(key=lambda m: len(m.tiles), reverse=True)`. -/
def sortByLenDesc (l : List (List Tile)) : List (List Tile) :=
  List.insertionSort (fun a b => b.length ≤ a.length) l

/-- `Solver._phase_rack_only`: greedily commit generated melds, largest
first, whenever their tiles are still available in the rack. -/
def phase_rack_only (rack : List Tile) : List Tile × List (List Tile) :=
  let sorted := sortByLenDesc (find_valid_sets_in_pool rack)
  sorted.foldl (fun acc m =>
    match matchTiles m acc.1 with
    | some r2 => (r2, acc.2 ++ [m])
    | none => acc) (rack, [])

/-! ## Solver.py — phase 3: extensions -/

/-- `Solver._can_extend`: heuristic pre-check before full validation. -/
def can_extend (m : List Tile) (tile : Tile) : Bool :=
  if m.isEmpty then false
  else if tile.is_joker then true
  else
    let real := m.filter (fun t => !t.is_joker)
    if real.isEmpty then true
    else
      let groupHit :=
        ((real.map Tile.val).dedup.length == 1) &&
          (tile.val == (real.headI).val) &&
          (!((real.map Tile.color).contains tile.color))
      if groupHit then true
      else
        ((real.map Tile.color).dedup.length == 1) &&
          (tile.color == (real.headI).color)

/-- Phase 3's inner loop over melds for one tile: tentative append + sort +
validate; on failure the tentative tile is removed again (leaving the meld
sorted) and the next meld is tried. -/
def tryMelds (tile : Tile) : List (List Tile) → Bool × List (List Tile)
  | [] => (false, [])
  | m :: rest =>
    if can_extend m tile then
      let r := meldCheck (sortT (m ++ [tile]))
      if r.1 then (true, r.2 :: rest)
      else
        let pr := tryMelds tile rest
        (pr.1, (r.2).erase tile :: pr.2)
    else
      let pr := tryMelds tile rest
      (pr.1, m :: pr.2)

/-- The backwards index walk of phase 3 (`for i in range(len-1, -1, -1)`). -/
def phase3Go : Nat → List Tile → List (List Tile) → List Tile × List (List Tile)
  | 0, r, ms => (r, ms)
  | k + 1, r, ms =>
    match r.get? k with
    | none => phase3Go k r ms
    | some tile =>
      let pr := tryMelds tile ms
      if pr.1 then phase3Go k (r.eraseIdx k) pr.2
      else phase3Go k r pr.2

/-- `Solver._phase_extensions`. -/
def phase_extensions (rack : List Tile) (melds : List (List Tile)) :
    List Tile × List (List Tile) :=
  phase3Go rack.length rack melds

/-! ## Solver.py — phase 4: loose tile scavenging -/

/-- The loose-tile candidates, each tagged with the index of its source
meld (Python tags with the meld object; indices play the role of object
identity, all melds in the working list being distinct objects). -/
def looseOptions (melds : List (List Tile)) : List (Tile × Nat) :=
  (melds.enum.map (fun p =>
    if 3 < p.2.length then
      let real := p.2.filter (fun t => !t.is_joker)
      if real.isEmpty then []
      else if (real.map Tile.val).dedup.length == 1 then
        p.2.map (fun t => (t, p.1))
      else [(p.2.headI, p.1), (p.2.getLastD JK, p.1)]
    else [])).flatten

/-- The tile-matching test of phase 4 (no joker guard on the value clause,
as in the source). -/
def pMatch (a b : Tile) : Bool :=
  (a.is_joker && b.is_joker) || (a.val == b.val && a.color == b.color)

/-- Phase 4's ingredient check for one candidate meld: source each needed
tile from the rack first, then from the loose options, consuming available
indices (ascending, the CPython small-int set iteration order). Returns
`(uses_rack, rack indices used, loose indices used)`. -/
def sourceGo (rack : List Tile) (loose : List (Tile × Nat)) :
    List Tile → List Nat → List Nat → Bool → List Nat → List Nat →
    Option (Bool × List Nat × List Nat)
  | [], _, _, ur, rUsed, lUsed => some (ur, rUsed, lUsed)
  | t :: ts, availR, availL, ur, rUsed, lUsed =>
    match availR.find? (fun i => pMatch t (rack.getD i JK)) with
    | some i => sourceGo rack loose ts (availR.erase i) availL true (rUsed ++ [i]) lUsed
    | none =>
      match availL.find? (fun i => pMatch (loose.getD i (JK, 0)).1 t) with
      | some i => sourceGo rack loose ts availR (availL.erase i) ur rUsed (lUsed ++ [i])
      | none => none

/-- Python's `sorted(indices, reverse=True)`. -/
def sortDesc (l : List Nat) : List Nat :=
  List.insertionSort (fun a b => b ≤ a) l

/-- The mutable state of phase 4's commit loop. -/
structure P4Acc where
  damage : Nat → Nat
  rack : List Tile
  melds : List (List Tile)
  news : List (List Tile)

/-- The source-meld indices claimed by a committed candidate (the keys of
`current_move_damage`, with multiplicity). -/
def p4srcs (loose : List (Tile × Nat)) (lUsed : List Nat) : List Nat :=
  lUsed.map (fun i => (loose.getD i (JK, 0)).2)

/-- Phase 4's damage safety check: for every distinct donor, accumulated
damage plus this move's claims must leave at least 3 tiles of the donor's
current length. -/
def p4safe (loose : List (Tile × Nat)) (acc : P4Acc) (lUsed : List Nat) : Bool :=
  (dedupF (p4srcs loose lUsed)).all
    (fun s => decide (acc.damage s + (p4srcs loose lUsed).count s + 3 ≤
      (acc.melds.getD s []).length))

/-- Removal of one claimed loose tile from its source meld, skipped
silently when the tile is no longer present (`if l_tile in l_source.tiles`
in the source). -/
def p4Remove (loose : List (Tile × Nat)) (ms : List (List Tile)) (i : Nat) :
    List (List Tile) :=
  let lt := (loose.getD i (JK, 0)).1
  let si := (loose.getD i (JK, 0)).2
  if lt ∈ ms.getD si [] then ms.set si ((ms.getD si []).erase lt) else ms

/-- One iteration of phase 4's commit loop for one candidate meld: check
ingredients, require a rack contribution, run the damage safety check
against the melds' current lengths, then commit (pop used rack tiles,
remove claimed loose tiles from their source melds when still present). -/
def phase4Step (loose : List (Tile × Nat)) (acc : P4Acc) (cand : List Tile) : P4Acc :=
  match sourceGo acc.rack loose cand (List.range acc.rack.length)
      (List.range loose.length) false [] [] with
  | none => acc
  | some (ur, rUsed, lUsed) =>
    if ur then
      if p4safe loose acc lUsed then
        { damage := fun s => acc.damage s + (p4srcs loose lUsed).count s
          rack := (sortDesc rUsed).foldl (fun r i => r.eraseIdx i) acc.rack
          melds := lUsed.foldl (p4Remove loose) acc.melds
          news := acc.news ++ [cand] }
      else acc
    else acc

/-- `Solver._phase_loose_tile_scavenging`: sort all melds, collect loose
options, pool them with the rack, generate candidates largest-first and
commit the safe ones. Returns the rack, the (possibly shrunk) board melds
and the newly formed melds. -/
def phase_loose_tile_scavenging (rack : List Tile) (melds : List (List Tile)) :
    List Tile × List (List Tile) × List (List Tile) :=
  let melds0 := melds.map sortT
  let loose := looseOptions melds0
  if loose.isEmpty then (rack, melds0, [])
  else
    let pool := rack ++ loose.map Prod.fst
    let cands := sortByLenDesc (find_valid_sets_in_pool pool)
    let fin := cands.foldl (phase4Step loose) ⟨fun _ => 0, rack, melds0, []⟩
    (fin.rack, fin.melds, fin.news)

/-! ## Solver.py — the orchestrator -/

/-- The four phases of `Solver.find_best_move` on the working copies,
returning the final working rack and the final meld list. -/
def solverRun (rack : List Tile) (melds : List (List Tile)) :
    List Tile × List (List Tile) :=
  let p1 := phase_joker_retrieval rack melds
  let p2 := phase_rack_only p1.1
  let p3 := phase_extensions p2.1 (p1.2 ++ p2.2)
  let p4 := phase_loose_tile_scavenging p3.1 p3.2
  (p4.1, p4.2.1 ++ p4.2.2)

/-- `Solver.find_best_move`: return the mutated meld list iff the working
rack got strictly smaller than the caller's rack. -/
def find_best_move (rack : List Tile) (melds : List (List Tile)) :
    Option (List (List Tile)) :=
  let r := solverRun rack melds
  if r.1.length < rack.length then some r.2 else none

/-- Rack for the C1 failing input: two Blue 1 tiles. -/
def c1Rack : List Tile := [T .blue 1, T .blue 1]

/-- Board for the C1 failing input: runs Red 1-6, Black 1-6, Orange 1-4,
all valid. -/
def c1Board : List (List Tile) :=
  [[T .red 1, T .red 2, T .red 3, T .red 4, T .red 5, T .red 6],
   [T .black 1, T .black 2, T .black 3, T .black 4, T .black 5, T .black 6],
   [T .orange 1, T .orange 2, T .orange 3, T .orange 4]]

/-- Rack for the C2 failing input: a single Red 6. -/
def c2Rack : List Tile := [T .red 6]

/-- Board for the C2 failing input: the valid melds [R5, Joker, R6] and
[B1, B2, B3]. -/
def c2Board : List (List Tile) :=
  [[T .red 5, JK, T .red 6], [T .blue 1, T .blue 2, T .blue 3]]

/-- The palette colors missing from a meld's real tiles, in the modelled
palette order (the `missing` list of `Solver._get_joker_identity`). -/
def missingColors (tiles : List Tile) : List TColor :=
  [TColor.red, TColor.orange, TColor.blue, TColor.black].filter
    (fun c => !(((tiles.filter (fun t => !t.is_joker)).map Tile.color).contains c))

/-- The claim's joker requirement for a run: the sum over consecutive
rank-sorted pairs of `gap - 1`. -/
def gapsSum : List Nat → Nat
  | [] => 0
  | [_] => 0
  | a :: b :: r => (b - a - 1) + gapsSum (b :: r)

/-- The rank-sorted values of a tile list, as the claim words it. -/
def specSortedVals (l : List Tile) : List Nat :=
  List.insertionSort (fun a b : Nat => a ≤ b) (l.map Tile.val)

/-- The Group disjunct of claim C6, in the claim's words: all real tiles
share one rank, real-plus-joker count is exactly 3 or 4, and no two real
tiles share a color. -/
def groupSpec (ts : List Tile) : Prop :=
  (∀ t1 ∈ realTiles ts, ∀ t2 ∈ realTiles ts, t1.val = t2.val) ∧
  ((realTiles ts).length + (jokerTiles ts).length = 3 ∨
    (realTiles ts).length + (jokerTiles ts).length = 4) ∧
  ((realTiles ts).map Tile.color).Nodup

/-- The Run disjunct of claim C6, in the claim's words: all real tiles
share one color, no two real tiles share a rank, and the jokers number at
least the sum over consecutive rank-sorted real-tile pairs of `gap - 1`. -/
def runSpec (ts : List Tile) : Prop :=
  (∀ t1 ∈ realTiles ts, ∀ t2 ∈ realTiles ts, t1.color = t2.color) ∧
  ((realTiles ts).map Tile.val).Nodup ∧
  gapsSum (specSortedVals (realTiles ts)) ≤ (jokerTiles ts).length

instance (ts : List Tile) : Decidable (groupSpec ts) := by
  unfold groupSpec; infer_instance

instance (ts : List Tile) : Decidable (runSpec ts) := by
  unfold runSpec; infer_instance

/-- The decomposition of one color's rank-sorted tiles into maximal
consecutive blocks (formalizing "maximal contiguous sub-range of distinct
ranks": later duplicates of a rank are skipped, and a block ends exactly
where the next sorted rank is not the successor). -/
def blocksGo : List Tile → List Tile → List (List Tile)
  | [], cur => if cur.isEmpty then [] else [cur]
  | t :: rest, cur =>
    match cur.getLast? with
    | none => blocksGo rest [t]
    | some last =>
      if t.val = last.val + 1 then blocksGo rest (cur ++ [t])
      else if t.val = last.val then blocksGo rest cur
      else cur :: blocksGo rest [t]

/-- The maximal consecutive rank blocks of one color of the pool. -/
def colorBlocks (pool : List Tile) (c : TColor) : List (List Tile) :=
  blocksGo (sortByVal (pool.filter (fun t => !t.is_joker && t.color == c))) []

/-! ## Claim C7: the caller-state frame of `find_best_move`

A small heap model: the mutable objects shared between caller and solver
are the tile lists inside `Rack` and each `Meld`. They live in an arena
(`Store`) of tile-list cells addressed by index (playing the role of
Python object identity). The caller's rack and melds are cells in the
arena; `find_best_move` clones each meld tile list into a FRESH cell
(`Meld(m.tiles[:])`, Solver.py:23) and runs the phases against the fresh
cells only, with the working rack list as a function-local value
(`rack.tiles[:]`, Solver.py:26). Each phase is the store-passing image of
the corresponding pure function above: it reads a cell, applies the same
per-meld computation, and writes the result back through the ref it was
given. The frame theorem shows every pre-existing cell — in particular
every caller-owned one — is unchanged after the call. -/

/-- The arena of mutable tile-list cells; a ref is an index. -/
abbrev Store := List (List Tile)

/-- Phase 1 over the store: for each meld ref, read the cell, run the
per-meld joker retrieval, write the updated tile list back. -/
def phase_joker_retrievalH (σ : Store) (rack : List Tile) (mrefs : List Nat) :
    Store × List Tile :=
  mrefs.foldl (fun acc r =>
    let pr := phase1Meld acc.2 (acc.1.getD r [])
    (acc.1.set r pr.2, pr.1)) (σ, rack)

/-- Allocation of fresh cells for newly created `Meld` objects. -/
def allocMany (σ : Store) (vs : List (List Tile)) : Store × List Nat :=
  (σ ++ vs, List.range' σ.length vs.length)

/-- Phase 3's inner meld walk over the store: tentative append, sort,
validate, revert on failure — each step writing through the meld's ref. -/
def tryMeldsH (σ : Store) (tile : Tile) : List Nat → Store × Bool
  | [] => (σ, false)
  | r :: rest =>
    let m := σ.getD r []
    if can_extend m tile then
      let res := meldCheck (sortT (m ++ [tile]))
      if res.1 then (σ.set r res.2, true)
      else tryMeldsH (σ.set r ((res.2).erase tile)) tile rest
    else tryMeldsH σ tile rest

/-- Phase 3's backwards rack walk over the store. -/
def phase3GoH : Nat → Store → List Tile → List Nat → Store × List Tile
  | 0, σ, rack, _ => (σ, rack)
  | k + 1, σ, rack, mrefs =>
    match rack.get? k with
    | none => phase3GoH k σ rack mrefs
    | some tile =>
      let pr := tryMeldsH σ tile mrefs
      if pr.2 then phase3GoH k pr.1 (rack.eraseIdx k) mrefs
      else phase3GoH k pr.1 rack mrefs

def phase_extensionsH (σ : Store) (rack : List Tile) (mrefs : List Nat) :
    Store × List Tile :=
  phase3GoH rack.length σ rack mrefs

/-- Phase 4's loose options over the store: tags are the donors' refs
(Python tags with the meld object, `id(src)`). -/
def looseOptionsH (σ : Store) (mrefs : List Nat) : List (Tile × Nat) :=
  (mrefs.map (fun r =>
    let m := σ.getD r []
    if 3 < m.length then
      let real := m.filter (fun t => !t.is_joker)
      if real.isEmpty then []
      else if (real.map Tile.val).dedup.length == 1 then
        m.map (fun t => (t, r))
      else [(m.headI, r), (m.getLastD JK, r)]
    else [])).flatten

/-- Phase 4 over the store. Since the commit loop (`phase4Step`) addresses
melds by index, it is reused verbatim: the index space is now the arena,
so `p4Remove`'s `List.set` IS the heap write through the donor's ref. -/
def phase4H (σ : Store) (rack : List Tile) (mrefs : List Nat) :
    Store × List Tile × List (List Tile) :=
  let σ1 := mrefs.foldl (fun s r => s.set r (sortT (s.getD r []))) σ
  let loose := looseOptionsH σ1 mrefs
  if loose.isEmpty then (σ1, rack, [])
  else
    let pool := rack ++ loose.map Prod.fst
    let cands := sortByLenDesc (find_valid_sets_in_pool pool)
    let fin := cands.foldl (phase4Step loose) ⟨fun _ => 0, rack, σ1, []⟩
    (fin.melds, fin.rack, fin.news)

/-- `Solver.find_best_move` over the store: clone the caller's meld cells
into fresh cells, run the four phases against the fresh refs, allocate
cells for melds created by phases 2 and 4, and return the new store with
the optional move (the final melds' tile lists). -/
def find_best_moveH (σ : Store) (rackRef : Nat) (meldRefs : List Nat) :
    Store × Option (List (List Tile)) :=
  let rackTiles := σ.getD rackRef []
  let copies := meldRefs.map (fun r => σ.getD r [])
  let σ1 := σ ++ copies
  let copyRefs := List.range' σ.length copies.length
  let p1 := phase_joker_retrievalH σ1 rackTiles copyRefs
  let p2 := phase_rack_only p1.2
  let a2 := allocMany p1.1 p2.2
  let refs2 := copyRefs ++ a2.2
  let p3 := phase_extensionsH a2.1 p2.1 refs2
  let p4 := phase4H p3.1 p3.2 refs2
  let a4 := allocMany p4.1 p4.2.2
  let finalRefs := refs2 ++ a4.2
  if p4.2.1.length < rackTiles.length then
    (a4.1, some (finalRefs.map (fun r => a4.1.getD r [])))
  else (a4.1, none)

/-! ## General lemmas about the helpers -/

theorem tle_iff (a b : Tile) :
    tle a b ↔ a.val < b.val ∨ (a.val = b.val ∧ a.color.srank ≤ b.color.srank) := by
  simp [tle, tleB, Bool.or_eq_true, Bool.and_eq_true, decide_eq_true_eq, beq_iff_eq]

theorem sortT_perm (l : List Tile) : (sortT l).Perm l :=
  List.perm_insertionSort tle l

theorem sortT_sorted (l : List Tile) : List.Sorted tle (sortT l) :=
  List.sorted_insertionSort tle l

theorem sortT_idem (l : List Tile) : sortT (sortT l) = sortT l :=
  (sortT_sorted l).insertionSort_eq

theorem mem_dedupFGo [DecidableEq α] (l : List α) (a : α) :
    ∀ seen, a ∈ dedupFGo l seen ↔ a ∈ l ∧ a ∉ seen := by
  induction l with
  | nil => intro seen; simp [dedupFGo]
  | cons b l ih =>
    intro seen
    by_cases hb : b ∈ seen
    · rw [dedupFGo, if_pos hb, ih seen]
      simp only [List.mem_cons]
      constructor
      · exact fun h => ⟨Or.inr h.1, h.2⟩
      · rintro ⟨h1 | h1, h2⟩
        · exact absurd (h1 ▸ hb) h2
        · exact ⟨h1, h2⟩
    · rw [dedupFGo, if_neg hb]
      simp only [List.mem_cons, ih (b :: seen)]
      by_cases hab : a = b
      · subst hab; simp [hb]
      · simp [hab]

theorem mem_dedupF [DecidableEq α] (l : List α) (a : α) : a ∈ dedupF l ↔ a ∈ l := by
  rw [dedupF, mem_dedupFGo]; simp

theorem dedup_length_le_one_iff [DecidableEq α] (l : List α) :
    l.dedup.length ≤ 1 ↔ ∀ a ∈ l, ∀ b ∈ l, a = b := by
  constructor
  · intro h a ha b hb
    have ha' : a ∈ l.dedup := List.mem_dedup.mpr ha
    have hb' : b ∈ l.dedup := List.mem_dedup.mpr hb
    match hd : l.dedup with
    | [] => rw [hd] at ha'; simp at ha'
    | [x] =>
      rw [hd] at ha' hb'
      simp only [List.mem_singleton] at ha' hb'
      rw [ha', hb']
    | x :: y :: tl => rw [hd] at h; simp at h
  · intro h
    by_cases hl : l = []
    · subst hl; simp
    · obtain ⟨x, hx⟩ := List.exists_mem_of_ne_nil l hl
      have hall : ∀ c ∈ l.dedup, c = x := fun c hc => h c (List.mem_dedup.mp hc) x hx
      have hnd : l.dedup.Nodup := List.nodup_dedup l
      match hd : l.dedup with
      | [] => simp
      | [a] => simp
      | a :: b :: tl =>
        exfalso
        have ha : a = x := hall a (by rw [hd]; simp)
        have hb : b = x := hall b (by rw [hd]; simp)
        rw [hd] at hnd
        have := List.rel_of_pairwise_cons hnd (List.mem_cons_self b tl)
        exact this (ha.trans hb.symm)

theorem dedup_length_eq_one_iff [DecidableEq α] (l : List α) :
    l.dedup.length = 1 ↔ l ≠ [] ∧ ∀ a ∈ l, ∀ b ∈ l, a = b := by
  constructor
  · intro h
    refine ⟨?_, (dedup_length_le_one_iff l).mp (by omega)⟩
    intro hl
    rw [hl] at h; simp at h
  · rintro ⟨hne, hall⟩
    have h1 : l.dedup.length ≤ 1 := (dedup_length_le_one_iff l).mpr hall
    have h2 : l.dedup ≠ [] := fun h => hne ((List.dedup_eq_nil l).mp h)
    have h3 : 0 < l.dedup.length := List.length_pos.mpr h2
    omega

theorem one_lt_dedup_length_iff [DecidableEq α] (l : List α) :
    1 < l.dedup.length ↔ ∃ a ∈ l, ∃ b ∈ l, a ≠ b := by
  rw [← not_le, dedup_length_le_one_iff]
  push_neg
  rfl

theorem dedup_length_eq_length_iff [DecidableEq α] (l : List α) :
    l.dedup.length = l.length ↔ l.Nodup := by
  constructor
  · intro h
    have := (List.dedup_sublist l).eq_of_length h
    rw [← this]
    exact List.nodup_dedup l
  · intro h
    rw [List.dedup_eq_self.mpr h]

/-! ## Claim C4: return contract of `find_best_move` -/

/-- Claim C4: for every rack and board input, `find_best_move` returns a
meld list if and only if the working rack after the four phases is strictly
shorter than the caller's rack; otherwise it returns `none`. (Absence of a
move is a return value, not an exception: the embedding is a total
function.) -/
theorem c4_find_best_move_returns_iff_progress (rack : List Tile)
    (melds : List (List Tile)) :
    (find_best_move rack melds).isSome = true ↔
      (solverRun rack melds).1.length < rack.length := by
  unfold find_best_move
  by_cases h : (solverRun rack melds).1.length < rack.length <;> simp [h]

/-! ## Claim C1: tile-value conservation (violated by phase 4) -/

/-- Claim C1 is violated by the code: on a fully valid board, phase 4
commits two scavenged melds that both claim the same loose Red 1 (the
second claim passes the damage check because the donor run is long, and its
removal is silently skipped because the tile is already gone), so the
returned move contains the Red 1 tile value twice while rack and board
initially contain it once. The Black 1 value is likewise duplicated. -/
theorem c1_conservation_violated :
    c1Board.all is_valid = true ∧
    ((c1Board.flatten ++ c1Rack).count (T .red 1) = 1 ∧
      (c1Board.flatten ++ c1Rack).count (T .black 1) = 1) ∧
    (find_best_move c1Rack c1Board).isSome = true ∧
    (((solverRun c1Rack c1Board).2.flatten ++
        (solverRun c1Rack c1Board).1).count (T .red 1) = 2 ∧
      ((solverRun c1Rack c1Board).2.flatten ++
        (solverRun c1Rack c1Board).1).count (T .black 1) = 2) := by
  decide

/-! ## Claim C2: validity preservation (violated by phase 1) -/

/-- Claim C2 is violated by the code: starting from a fully valid board,
phase 1 deduces the joker in [R5, Joker, R6] as a Red 6 from its left
neighbor and swaps the rack's Red 6 in without re-validating, leaving the
invalid meld [R5, R6, R6] on the board; the freed joker is then played in
phase 3, so a move is returned whose board contains an invalid meld. -/
theorem c2_validity_violated :
    c2Board.all is_valid = true ∧
    (find_best_move c2Rack c2Board).map (fun ms => ms.all is_valid) = some false := by
  decide

/-! ## Claim C9: atomic rack removal -/

theorem removeTilesGo_spec (ts : List Tile) : ∀ acc : List Tile,
    (((ts : Multiset Tile) ≤ (acc : Multiset Tile)) →
      ∃ b, removeTilesGo acc ts = some b ∧
        (b : Multiset Tile) = (acc : Multiset Tile) - (ts : Multiset Tile)) ∧
    ((¬ ((ts : Multiset Tile) ≤ (acc : Multiset Tile))) →
      removeTilesGo acc ts = none) := by
  induction ts with
  | nil =>
    intro acc
    refine ⟨fun _ => ⟨acc, rfl, ?_⟩, fun h => absurd (Multiset.zero_le _) h⟩
    simp
  | cons t ts ih =>
    intro acc
    rw [← Multiset.cons_coe]
    by_cases ht : t ∈ acc
    · have hrw : removeTilesGo acc (t :: ts) = removeTilesGo (acc.erase t) ts := by
        rw [removeTilesGo, if_pos ht]
      have hce : ((acc.erase t : List Tile) : Multiset Tile) =
          ((acc : Multiset Tile)).erase t := (Multiset.coe_erase acc t).symm
      constructor
      · intro hle
        have hle' : (ts : Multiset Tile) ≤ ((acc : Multiset Tile)).erase t := by
          have h1 : (t ::ₘ (ts : Multiset Tile)).erase t ≤
              ((acc : Multiset Tile)).erase t := Multiset.erase_le_erase t hle
          rwa [Multiset.erase_cons_head] at h1
        obtain ⟨b, hb, hbm⟩ := (ih (acc.erase t)).1 (by rw [hce]; exact hle')
        refine ⟨b, by rw [hrw]; exact hb, ?_⟩
        rw [hbm, hce, Multiset.sub_cons]
      · intro hnle
        rw [hrw]
        apply (ih (acc.erase t)).2
        rw [hce]
        intro hle'
        apply hnle
        have h1 := Multiset.cons_le_cons t hle'
        rwa [Multiset.cons_erase (Multiset.mem_coe.mpr ht)] at h1
    · have hrw : removeTilesGo acc (t :: ts) = none := by
        rw [removeTilesGo, if_neg ht]
      constructor
      · intro hle
        exact absurd (Multiset.mem_coe.mp
          (Multiset.mem_of_le hle (Multiset.mem_cons_self t _))) ht
      · intro _
        exact hrw

/-- Claim C9: `Rack.remove_tiles` is atomic. If the requested tiles
(counted with multiplicity) are not all present, it returns `False` and
leaves the rack unchanged; if they are, it returns `True` and the rack
afterwards holds exactly the initial multiset minus the requested one. -/
theorem c9_remove_tiles_atomic (rack ts : List Tile) :
    ((¬ ((ts : Multiset Tile) ≤ (rack : Multiset Tile))) →
      remove_tiles rack ts = (false, rack)) ∧
    (((ts : Multiset Tile) ≤ (rack : Multiset Tile)) →
      (remove_tiles rack ts).1 = true ∧
      ((remove_tiles rack ts).2 : Multiset Tile) =
        (rack : Multiset Tile) - (ts : Multiset Tile)) := by
  constructor
  · intro hnle
    have h := (removeTilesGo_spec ts rack).2 hnle
    rw [remove_tiles, h]
  · intro hle
    obtain ⟨b, hb, hbm⟩ := (removeTilesGo_spec ts rack).1 hle
    rw [remove_tiles, hb]
    refine ⟨rfl, ?_⟩
    have : ((sortT b : List Tile) : Multiset Tile) = (b : Multiset Tile) :=
      Multiset.coe_eq_coe.mpr (sortT_perm b)
    simpa [this] using hbm

/-- Witness for C9 at a concrete rack: removing [Red2, Red1] from
[Red1, Red2, Red2] succeeds and leaves exactly one Red 2; removing a
missing Blue 5 fails and leaves the rack untouched. -/
theorem c9_remove_tiles_atomic_witness :
    (remove_tiles [T .red 1, T .red 2, T .red 2] [T .red 2, T .red 1]).1 = true ∧
    ((remove_tiles [T .red 1, T .red 2, T .red 2] [T .red 2, T .red 1]).2 :
        Multiset Tile) =
      ([T .red 1, T .red 2, T .red 2] : List Tile) - ([T .red 2, T .red 1] : List Tile) ∧
    remove_tiles [T .red 1, T .red 2, T .red 2] [T .blue 5] =
      (false, [T .red 1, T .red 2, T .red 2]) := by
  have h1 := (c9_remove_tiles_atomic [T .red 1, T .red 2, T .red 2]
    [T .red 2, T .red 1]).2 (by decide)
  have h2 := (c9_remove_tiles_atomic [T .red 1, T .red 2, T .red 2]
    [T .blue 5]).1 (by decide)
  exact ⟨h1.1, h1.2, h2⟩

/-! ## Claim C10: the validator's in-place sort -/

/-- Claim C10: for melds with at least 3 tiles, `Meld.is_valid` sorts the
tile list in place by `(rank, color)` (so jokers, rank 30, come last),
preserving the tile multiset; shorter melds are left untouched by the early
return; and a second call on the resulting state returns the same boolean. -/
theorem c10_is_valid_sorts_in_place (ts : List Tile) :
    (ts.length < 3 → meldCheck ts = (false, ts)) ∧
    (3 ≤ ts.length →
      ((meldCheck ts).2.Perm ts ∧ List.Sorted tle (meldCheck ts).2)) ∧
    is_valid (meldCheck ts).2 = is_valid ts := by
  by_cases h : ts.length < 3
  · have hmc : meldCheck ts = (false, ts) := by rw [meldCheck, if_pos h]
    refine ⟨fun _ => hmc, fun h3 => absurd h3 (by omega), ?_⟩
    rw [hmc]
  · have hmc : meldCheck ts = (validOnSorted (sortT ts), sortT ts) := by
      rw [meldCheck, if_neg h]
    refine ⟨fun h3 => absurd h3 (by omega), fun _ => ?_, ?_⟩
    · rw [hmc]
      exact ⟨sortT_perm ts, sortT_sorted ts⟩
    · have hlen : (sortT ts).length = ts.length := (sortT_perm ts).length_eq
      have hmc2 : meldCheck (sortT ts) = (validOnSorted (sortT ts), sortT ts) := by
        rw [meldCheck, if_neg (by omega), sortT_idem]
      rw [hmc]
      show is_valid (sortT ts) = is_valid ts
      simp only [is_valid, hmc, hmc2]

/-- Witness for C10 at the meld [R3, R1, Joker, R2]. -/
theorem c10_is_valid_sorts_in_place_witness :
    (meldCheck [T .red 3, T .red 1, JK, T .red 2]).2.Perm
      [T .red 3, T .red 1, JK, T .red 2] ∧
    List.Sorted tle (meldCheck [T .red 3, T .red 1, JK, T .red 2]).2 ∧
    is_valid (meldCheck [T .red 3, T .red 1, JK, T .red 2]).2 =
      is_valid [T .red 3, T .red 1, JK, T .red 2] := by
  have h := c10_is_valid_sorts_in_place [T .red 3, T .red 1, JK, T .red 2]
  have h2 := h.2.1 (by decide)
  exact ⟨h2.1, h2.2, h.2.2⟩

/-! ## Claim C5: joker group-inference ambiguity -/

/-- Counterexample to claim C5: for the valid group meld [R5, B5, Joker],
two of the four colors are missing — the claim says the deduction is
ambiguous and the joker must be skipped — yet `_get_joker_identity` does
deduce an identity (it returns the first missing color). -/
theorem c5_joker_inference_counterexample :
    (missingColors [T .red 5, T .blue 5, JK]).length = 2 ∧
    (get_joker_identity [T .red 5, T .blue 5, JK] 2).isSome = true ∧
    is_valid [T .red 5, T .blue 5, JK] = true := by
  decide

/-- Claim C5 as amended: for a meld whose non-joker tiles all share one
rank across at least two distinct colors, the joker's identity is deduced
whenever at least one palette color is missing (the deduced identity being
a missing color with the shared rank), and the joker is skipped only when
no color is missing. -/
theorem c5_joker_inference_amended (tiles : List Tile) (j : Nat)
    (hne : realTiles tiles ≠ [])
    (hval : ∀ t1 ∈ realTiles tiles, ∀ t2 ∈ realTiles tiles, t1.val = t2.val)
    (hcol : ∃ t1 ∈ realTiles tiles, ∃ t2 ∈ realTiles tiles, t1.color ≠ t2.color) :
    ((get_joker_identity tiles j).isSome = true ↔ missingColors tiles ≠ []) ∧
    (∀ cv, get_joker_identity tiles j = some cv →
      cv.1 ∈ missingColors tiles ∧ cv.2 = ((realTiles tiles).headI.val : Int)) := by
  have h0 : ¬((tiles.filter (fun t => !t.is_joker)).isEmpty = true) := fun hh =>
    hne (List.isEmpty_iff.mp hh)
  have hval' : (((tiles.filter (fun t => !t.is_joker)).map Tile.val)).dedup.length = 1 := by
    rw [dedup_length_eq_one_iff]
    refine ⟨by rwa [ne_eq, List.map_eq_nil_iff], ?_⟩
    intro a ha b hb
    obtain ⟨t1, ht1, rfl⟩ := List.mem_map.mp ha
    obtain ⟨t2, ht2, rfl⟩ := List.mem_map.mp hb
    exact hval t1 ht1 t2 ht2
  have hcol' : 1 < (((tiles.filter (fun t => !t.is_joker)).map Tile.color)).dedup.length := by
    rw [one_lt_dedup_length_iff]
    obtain ⟨t1, ht1, t2, ht2, hne2⟩ := hcol
    exact ⟨t1.color, List.mem_map_of_mem _ ht1, t2.color, List.mem_map_of_mem _ ht2, hne2⟩
  have hrw : get_joker_identity tiles j =
      (match missingColors tiles with
       | [] => none
       | c :: _ => some (c, ((realTiles tiles).headI.val : Int))) := by
    simp only [get_joker_identity]
    rw [if_neg h0, if_pos ⟨hval', hcol'⟩]
    rfl
  rcases hm : missingColors tiles with _ | ⟨c, rest⟩
  · rw [hm] at hrw
    refine ⟨?_, ?_⟩
    · rw [hrw]
      simp
    · intro cv hcv
      rw [hrw] at hcv
      exact absurd hcv (by simp)
  · rw [hm] at hrw
    refine ⟨?_, ?_⟩
    · rw [hrw]
      simp
    · intro cv hcv
      rw [hrw] at hcv
      obtain rfl : cv = (c, ((realTiles tiles).headI.val : Int)) := by
        injection hcv with h
        exact h.symm
      exact ⟨List.mem_cons_self c rest, rfl⟩

/-- Witness for C5's amended theorem at the meld [R5, B5, Joker]. -/
theorem c5_joker_inference_amended_witness :
    ((get_joker_identity [T .red 5, T .blue 5, JK] 2).isSome = true ↔
      missingColors [T .red 5, T .blue 5, JK] ≠ []) ∧
    (∀ cv, get_joker_identity [T .red 5, T .blue 5, JK] 2 = some cv →
      cv.1 ∈ missingColors [T .red 5, T .blue 5, JK] ∧
      cv.2 = ((realTiles [T .red 5, T .blue 5, JK]).headI.val : Int)) :=
  c5_joker_inference_amended [T .red 5, T .blue 5, JK] 2 (by decide)
    (by decide) (by decide)

/-! ## Claim C6: characterization of the validator -/

/-- Counterexample to claim C6 as stated: the 5-tile meld
[R5, Joker, Joker, Joker, Joker] satisfies the claim's right-hand side (its
single real tile vacuously satisfies the Run disjunct), yet `is_valid`
rejects it: the traffic cop routes every meld whose real tiles share one
rank to the Group check, which rejects total size 5. -/
theorem c6_validator_counterexample :
    is_valid [T .red 5, JK, JK, JK, JK] = false ∧
    (3 ≤ ([T .red 5, JK, JK, JK, JK] : List Tile).length ∧
      realTiles [T .red 5, JK, JK, JK, JK] ≠ [] ∧
      (groupSpec [T .red 5, JK, JK, JK, JK] ∨ runSpec [T .red 5, JK, JK, JK, JK])) := by
  decide

theorem group_check_iff (real : List Tile) (nj : Nat) :
    group_check real nj = true ↔
      (real.length + nj = 3 ∨ real.length + nj = 4) ∧ (real.map Tile.color).Nodup := by
  rw [group_check, Bool.and_eq_true, Bool.or_eq_true, beq_iff_eq, beq_iff_eq, beq_iff_eq,
    dedup_length_eq_length_iff]

theorem run_required_sorted (l : List Nat) (hs : List.Sorted (fun a b : Nat => a ≤ b) l) :
    run_required l = if l.Nodup then some ((gapsSum l : Int)) else none := by
  induction l with
  | nil => simp [run_required, gapsSum]
  | cons a l ih =>
    match l with
    | [] => simp [run_required, gapsSum]
    | b :: r =>
      have hab : a ≤ b := (List.sorted_cons.mp hs).1 b (List.mem_cons_self b r)
      have hs' : List.Sorted (fun a b : Nat => a ≤ b) (b :: r) := (List.sorted_cons.mp hs).2
      by_cases heq : a = b
      · subst heq
        rw [run_required, if_pos (by omega)]
        rw [if_neg (fun hnd => (List.nodup_cons.mp hnd).1 (List.mem_cons_self a r))]
      · have hlt : a < b := lt_of_le_of_ne hab heq
        have hnotmem : a ∉ b :: r := by
          intro hmem
          have hble : ∀ x ∈ b :: r, b ≤ x := by
            intro x hx
            rcases List.mem_cons.mp hx with rfl | hx
            · exact le_refl x
            · exact (List.sorted_cons.mp hs').1 x hx
          have := hble a hmem
          omega
        rw [run_required, if_neg (by omega), ih hs']
        by_cases hnd : (b :: r).Nodup
        · rw [if_pos hnd, if_pos (List.nodup_cons.mpr ⟨hnotmem, hnd⟩)]
          rw [Option.map_some']
          congr 1
          show (gapsSum (b :: r) : Int) + ((b : Int) - a - 1) = (gapsSum (a :: b :: r) : Int)
          rw [gapsSum]
          push_cast
          omega
        · rw [if_neg hnd, if_neg (fun hh => hnd (List.nodup_cons.mp hh).2)]
          rfl

theorem run_check_iff (l : List Nat) (hs : List.Sorted (fun a b : Nat => a ≤ b) l)
    (nj : Nat) : run_check l nj = true ↔ l.Nodup ∧ gapsSum l ≤ nj := by
  rw [run_check, run_required_sorted l hs]
  by_cases hnd : l.Nodup
  · rw [if_pos hnd]
    simp only [ge_iff_le, decide_eq_true_eq, hnd, true_and]
    omega
  · rw [if_neg hnd]
    simp [hnd]

theorem realTiles_sortT_pairwise (ts : List Tile) :
    List.Pairwise (fun a b : Tile => a.val ≤ b.val) (realTiles (sortT ts)) := by
  have h1 : List.Pairwise tle (sortT ts) := sortT_sorted ts
  have h2 : List.Pairwise tle (realTiles (sortT ts)) :=
    List.Pairwise.sublist (List.filter_sublist (sortT ts)) h1
  exact h2.imp (fun hab => by
    rcases (tle_iff _ _).mp hab with h | ⟨h, _⟩
    · omega
    · omega)

theorem realTiles_sortT_vals_sorted (ts : List Tile) :
    List.Sorted (fun a b : Nat => a ≤ b) ((realTiles (sortT ts)).map Tile.val) :=
  List.pairwise_map.mpr (realTiles_sortT_pairwise ts)

theorem specSortedVals_eq (ts : List Tile) :
    specSortedVals (realTiles ts) = (realTiles (sortT ts)).map Tile.val := by
  have hp : (specSortedVals (realTiles ts)).Perm ((realTiles (sortT ts)).map Tile.val) := by
    have hfp : (ts.filter (fun t => !t.is_joker)).Perm
        ((sortT ts).filter (fun t => !t.is_joker)) :=
      ((sortT_perm ts).filter (fun t => !t.is_joker)).symm
    exact (List.perm_insertionSort _ _).trans (hfp.map Tile.val)
  have hs1 : List.Sorted (fun a b : Nat => a ≤ b) (specSortedVals (realTiles ts)) :=
    List.sorted_insertionSort _ _
  exact List.eq_of_perm_of_sorted hp hs1 (realTiles_sortT_vals_sorted ts)

/-- Claim C6 as amended: `is_valid` returns true iff the meld has at least
3 tiles, at least one real tile, and either the claim's Group disjunct
holds, or the real tiles do NOT all share one rank and the claim's Run
disjunct holds. (The source's traffic cop routes every meld whose real
tiles share one rank to the Group check, so the Run disjunct can fire only
when at least two real ranks differ — the one correction the
counterexample forces.) -/
theorem c6_validator_characterization (ts : List Tile) :
    is_valid ts = true ↔
      3 ≤ ts.length ∧ realTiles ts ≠ [] ∧
      (groupSpec ts ∨
        ((∃ t1 ∈ realTiles ts, ∃ t2 ∈ realTiles ts, t1.val ≠ t2.val) ∧ runSpec ts)) := by
  rw [is_valid, meldCheck]
  by_cases h3 : ts.length < 3
  · rw [if_pos h3]
    constructor
    · intro h
      simp at h
    · rintro ⟨hl, _, _⟩
      exfalso
      omega
  · rw [if_neg h3]
    have h3' : 3 ≤ ts.length := by omega
    have hrperm : (realTiles (sortT ts)).Perm (realTiles ts) := by
      unfold realTiles
      exact (sortT_perm ts).filter (fun t => !t.is_joker)
    have hjperm : (jokerTiles (sortT ts)).Perm (jokerTiles ts) := by
      unfold jokerTiles
      exact (sortT_perm ts).filter (fun t => t.is_joker)
    have hjlen : (jokerTiles (sortT ts)).length = (jokerTiles ts).length := hjperm.length_eq
    have hrlen : (realTiles (sortT ts)).length = (realTiles ts).length := hrperm.length_eq
    show validOnSorted (sortT ts) = true ↔ _
    simp only [validOnSorted]
    by_cases hre : ((realTiles (sortT ts)).isEmpty = true)
    · rw [if_pos hre]
      have hnil : realTiles ts = [] := by
        have h0 := List.isEmpty_iff.mp hre
        have hl := hrperm.length_eq
        rw [h0] at hl
        exact List.eq_nil_of_length_eq_zero hl.symm
      constructor
      · intro h
        simp at h
      · rintro ⟨_, hne, _⟩
        exact absurd hnil hne
    · have hrne : realTiles ts ≠ [] := by
        intro h0
        apply hre
        rw [List.isEmpty_iff]
        have hl := hrperm.length_eq
        rw [h0] at hl
        exact List.eq_nil_of_length_eq_zero hl
      rw [if_neg hre]
      by_cases hg : ((realTiles (sortT ts)).map Tile.val).dedup.length = 1
      · rw [if_pos (show ((((realTiles (sortT ts)).map Tile.val).dedup.length == 1) = true)
          from by simpa using hg)]
        rw [group_check_iff]
        have hallval : ∀ t1 ∈ realTiles ts, ∀ t2 ∈ realTiles ts, t1.val = t2.val := by
          have hone := (dedup_length_eq_one_iff _).mp hg
          intro t1 ht1 t2 ht2
          exact hone.2 t1.val (List.mem_map_of_mem _ (hrperm.mem_iff.mpr ht1))
            t2.val (List.mem_map_of_mem _ (hrperm.mem_iff.mpr ht2))
        constructor
        · rintro ⟨hsz, hnd⟩
          refine ⟨h3', hrne, Or.inl ⟨hallval, ?_, ?_⟩⟩
          · rw [← hrlen, ← hjlen]
            exact hsz
          · exact ((hrperm.map Tile.color).nodup_iff).mp hnd
        · rintro ⟨_, _, hdisj⟩
          rcases hdisj with ⟨_, hsz, hnd⟩ | ⟨hex, _⟩
          · refine ⟨?_, ((hrperm.map Tile.color).nodup_iff).mpr hnd⟩
            rw [hrlen, hjlen]
            exact hsz
          · obtain ⟨t1, ht1, t2, ht2, hne2⟩ := hex
            exact absurd (hallval t1 ht1 t2 ht2) hne2
      · rw [if_neg (show ¬((((realTiles (sortT ts)).map Tile.val).dedup.length == 1) = true)
          from by simpa using hg)]
        have hdpos : 0 < ((realTiles (sortT ts)).map Tile.val).dedup.length := by
          apply List.length_pos.mpr
          intro hd
          rw [List.dedup_eq_nil, List.map_eq_nil_iff] at hd
          exact hre (List.isEmpty_iff.mpr hd)
        have hexv : ∃ t1 ∈ realTiles ts, ∃ t2 ∈ realTiles ts, t1.val ≠ t2.val := by
          have h2 : 1 < ((realTiles (sortT ts)).map Tile.val).dedup.length := by omega
          obtain ⟨a, ha, b, hb, hab⟩ := (one_lt_dedup_length_iff _).mp h2
          obtain ⟨t1, ht1, rfl⟩ := List.mem_map.mp ha
          obtain ⟨t2, ht2, rfl⟩ := List.mem_map.mp hb
          exact ⟨t1, hrperm.mem_iff.mp ht1, t2, hrperm.mem_iff.mp ht2, hab⟩
        have hngroup : ¬ groupSpec ts := by
          rintro ⟨hall, _, _⟩
          obtain ⟨t1, ht1, t2, ht2, hne2⟩ := hexv
          exact hne2 (hall t1 ht1 t2 ht2)
        by_cases hc : ((realTiles (sortT ts)).map Tile.color).dedup.length = 1
        · rw [if_pos (show ((((realTiles (sortT ts)).map Tile.color).dedup.length == 1) = true)
            from by simpa using hc)]
          rw [run_check_iff _ (realTiles_sortT_vals_sorted ts)]
          have hallcol : ∀ t1 ∈ realTiles ts, ∀ t2 ∈ realTiles ts, t1.color = t2.color := by
            have hone := (dedup_length_eq_one_iff _).mp hc
            intro t1 ht1 t2 ht2
            exact hone.2 t1.color (List.mem_map_of_mem _ (hrperm.mem_iff.mpr ht1))
              t2.color (List.mem_map_of_mem _ (hrperm.mem_iff.mpr ht2))
          constructor
          · rintro ⟨hnd, hgs⟩
            refine ⟨h3', hrne, Or.inr ⟨hexv, hallcol, ?_, ?_⟩⟩
            · exact ((hrperm.map Tile.val).nodup_iff).mp hnd
            · rw [specSortedVals_eq, hjlen] at *
              exact hgs
          · rintro ⟨_, _, hdisj⟩
            rcases hdisj with hgspec | ⟨_, _, hnd, hgs⟩
            · exact absurd hgspec hngroup
            · refine ⟨((hrperm.map Tile.val).nodup_iff).mpr hnd, ?_⟩
              rw [specSortedVals_eq] at hgs
              rw [hjlen]
              exact hgs
        · rw [if_neg (show ¬((((realTiles (sortT ts)).map Tile.color).dedup.length == 1) = true)
            from by simpa using hc)]
          constructor
          · intro h
            simp at h
          · rintro ⟨_, _, hdisj⟩
            exfalso
            rcases hdisj with hgspec | ⟨_, hallcol, _, _⟩
            · exact hngroup hgspec
            · have hcpos : 0 < ((realTiles (sortT ts)).map Tile.color).dedup.length := by
                apply List.length_pos.mpr
                intro hd
                rw [List.dedup_eq_nil, List.map_eq_nil_iff] at hd
                exact hre (List.isEmpty_iff.mpr hd)
              have h2 : 1 < ((realTiles (sortT ts)).map Tile.color).dedup.length := by omega
              obtain ⟨a, ha, b, hb, hab⟩ := (one_lt_dedup_length_iff _).mp h2
              obtain ⟨t1, ht1, rfl⟩ := List.mem_map.mp ha
              obtain ⟨t2, ht2, rfl⟩ := List.mem_map.mp hb
              exact hab (hallcol t1 (hrperm.mem_iff.mp ht1) t2 (hrperm.mem_iff.mp ht2))

/-! ## Claim C3: what the generator actually emits -/

/-- Counterexample to claim C3 as stated: the pool {R5, B5, O5, K5} admits
the valid 3-color group {R5, B5, K5}, and the pool {R1, R2, R3, R4} admits
the valid contiguous sub-run {R1, R2, R3}, but `_find_valid_sets_in_pool`
emits neither (it emits only the first 3-combination in pool order, and
only maximal runs). -/
theorem c3_generator_counterexample :
    (is_valid [T .red 5, T .blue 5, T .black 5] = true ∧
      (∀ m ∈ find_valid_sets_in_pool [T .red 5, T .blue 5, T .orange 5, T .black 5],
        ¬ m.Perm [T .red 5, T .blue 5, T .black 5])) ∧
    (is_valid [T .red 1, T .red 2, T .red 3] = true ∧
      (∀ m ∈ find_valid_sets_in_pool [T .red 1, T .red 2, T .red 3, T .red 4],
        ¬ m.Perm [T .red 1, T .red 2, T .red 3])) := by
  decide

theorem firstUniqueByColorGo_length_le (l : List Tile) :
    ∀ seen, (firstUniqueByColorGo l seen).length ≤ l.length := by
  induction l with
  | nil => intro seen; simp [firstUniqueByColorGo]
  | cons t ts ih =>
    intro seen
    rw [firstUniqueByColorGo]
    by_cases h : t.color ∈ seen
    · rw [if_pos h]
      exact le_trans (ih seen) (by simp)
    · rw [if_neg h]
      simpa using ih (t.color :: seen)

theorem groupEmit_mem_output (pool : List Tile) (v : Nat) (m : List Tile)
    (hv : v ∈ valKeys pool)
    (hm : m ∈ groupEmit pool (pool.filter (fun t => t.is_joker)) v) :
    m ∈ find_valid_sets_in_pool pool := by
  simp only [find_valid_sets_in_pool]
  apply List.mem_append_left
  rw [List.mem_flatten]
  exact ⟨groupEmit pool (pool.filter (fun t => t.is_joker)) v,
    List.mem_map_of_mem _ hv, hm⟩

theorem runEmit_mem_output (pool : List Tile) (c : TColor) (m : List Tile)
    (hc : c ∈ colorKeys pool)
    (hm : m ∈ runEmit pool (pool.filter (fun t => t.is_joker)) c) :
    m ∈ find_valid_sets_in_pool pool := by
  simp only [find_valid_sets_in_pool]
  apply List.mem_append_right
  rw [List.mem_flatten]
  exact ⟨runEmit pool (pool.filter (fun t => t.is_joker)) c,
    List.mem_map_of_mem _ hc, hm⟩


theorem blocksGo_none (t : Tile) (rest cur : List Tile) (h : cur.getLast? = none) :
    blocksGo (t :: rest) cur = blocksGo rest [t] := by
  rw [blocksGo, h]

theorem blocksGo_succ (t : Tile) (rest cur : List Tile) (last : Tile)
    (h : cur.getLast? = some last) (h1 : t.val = last.val + 1) :
    blocksGo (t :: rest) cur = blocksGo rest (cur ++ [t]) := by
  rw [blocksGo, h]
  show (if t.val = last.val + 1 then blocksGo rest (cur ++ [t])
    else if t.val = last.val then blocksGo rest cur
    else cur :: blocksGo rest [t]) = blocksGo rest (cur ++ [t])
  rw [if_pos h1]

theorem blocksGo_dup (t : Tile) (rest cur : List Tile) (last : Tile)
    (h : cur.getLast? = some last) (h1 : ¬ t.val = last.val + 1) (h2 : t.val = last.val) :
    blocksGo (t :: rest) cur = blocksGo rest cur := by
  rw [blocksGo, h]
  show (if t.val = last.val + 1 then blocksGo rest (cur ++ [t])
    else if t.val = last.val then blocksGo rest cur
    else cur :: blocksGo rest [t]) = blocksGo rest cur
  rw [if_neg h1, if_pos h2]

theorem blocksGo_gap (t : Tile) (rest cur : List Tile) (last : Tile)
    (h : cur.getLast? = some last) (h1 : ¬ t.val = last.val + 1) (h2 : ¬ t.val = last.val) :
    blocksGo (t :: rest) cur = cur :: blocksGo rest [t] := by
  rw [blocksGo, h]
  show (if t.val = last.val + 1 then blocksGo rest (cur ++ [t])
    else if t.val = last.val then blocksGo rest cur
    else cur :: blocksGo rest [t]) = cur :: blocksGo rest [t]
  rw [if_neg h1, if_neg h2]

theorem runScanGo_none (jokers : List Tile) (t : Tile) (rest cur : List Tile)
    (h : cur.getLast? = none) :
    runScanGo jokers (t :: rest) cur = runScanGo jokers rest [t] := by
  rw [runScanGo, h]

theorem runScanGo_succ (jokers : List Tile) (t : Tile) (rest cur : List Tile) (last : Tile)
    (h : cur.getLast? = some last) (h1 : t.val = last.val + 1) :
    runScanGo jokers (t :: rest) cur = runScanGo jokers rest (cur ++ [t]) := by
  rw [runScanGo, h]
  show (if (t.val == last.val + 1) = true then runScanGo jokers rest (cur ++ [t]) else _) = _
  rw [if_pos (show (t.val == last.val + 1) = true from by simpa using h1)]

theorem runScanGo_dup (jokers : List Tile) (t : Tile) (rest cur : List Tile) (last : Tile)
    (h : cur.getLast? = some last) (h1 : ¬ t.val = last.val + 1) (h2 : t.val = last.val) :
    runScanGo jokers (t :: rest) cur = runScanGo jokers rest cur := by
  rw [runScanGo, h]
  show (if (t.val == last.val + 1) = true then runScanGo jokers rest (cur ++ [t])
    else if (t.val == last.val) = true then runScanGo jokers rest cur else _) = _
  rw [if_neg (show ¬((t.val == last.val + 1) = true) from by simpa using h1),
    if_pos (show (t.val == last.val) = true from by simpa using h2)]

theorem runScanGo_gap (jokers : List Tile) (t : Tile) (rest cur : List Tile) (last : Tile)
    (h : cur.getLast? = some last) (h1 : ¬ t.val = last.val + 1) (h2 : ¬ t.val = last.val) :
    runScanGo jokers (t :: rest) cur =
      ((runScanGo jokers rest [t]).1,
        (if !jokers.isEmpty && (t.val == last.val + 2)
            then (if 3 ≤ cur.length + 2 then [cur ++ [jokers.headI, t]] else [])
            else []) ++
          ((if 3 ≤ cur.length then [cur] else []) ++ (runScanGo jokers rest [t]).2)) := by
  rw [runScanGo, h]
  show (if (t.val == last.val + 1) = true then runScanGo jokers rest (cur ++ [t])
    else if (t.val == last.val) = true then runScanGo jokers rest cur
    else
      let e1 : List (List Tile) :=
        if !jokers.isEmpty && (t.val == last.val + 2) then
          (if 3 ≤ cur.length + 2 then [cur ++ [jokers.headI, t]] else [])
        else []
      let e2 : List (List Tile) := if 3 ≤ cur.length then [cur] else []
      let fces := runScanGo jokers rest [t]
      (fces.1, e1 ++ e2 ++ fces.2)) = _
  rw [if_neg (show ¬((t.val == last.val + 1) = true) from by simpa using h1),
    if_neg (show ¬((t.val == last.val) = true) from by simpa using h2)]
  show ((runScanGo jokers rest [t]).1,
      (if !jokers.isEmpty && (t.val == last.val + 2)
          then (if 3 ≤ cur.length + 2 then [cur ++ [jokers.headI, t]] else [])
          else []) ++
        (if 3 ≤ cur.length then [cur] else []) ++ (runScanGo jokers rest [t]).2) = _
  rw [List.append_assoc]

theorem blocksGo_length_le (ts : List Tile) :
    ∀ cur b, b ∈ blocksGo ts cur → b.length ≤ cur.length + ts.length := by
  induction ts with
  | nil =>
    intro cur b hb
    rw [blocksGo] at hb
    by_cases h : cur.isEmpty
    · rw [if_pos h] at hb
      simp at hb
    · rw [if_neg h] at hb
      simp only [List.mem_singleton] at hb
      subst hb
      simp
  | cons t rest ih =>
    intro cur b hb
    cases hlast : cur.getLast? with
    | none =>
      rw [blocksGo_none t rest cur hlast] at hb
      have h1 := ih [t] b hb
      simp only [List.length_singleton, List.length_cons, List.length_nil] at h1 ⊢
      omega
    | some last =>
      by_cases h1 : t.val = last.val + 1
      · rw [blocksGo_succ t rest cur last hlast h1] at hb
        have h2 := ih (cur ++ [t]) b hb
        simp only [List.length_append, List.length_singleton, List.length_cons, List.length_nil] at h2 ⊢
        omega
      · by_cases h2 : t.val = last.val
        · rw [blocksGo_dup t rest cur last hlast h1 h2] at hb
          have h3 := ih cur b hb
          simp only [List.length_cons] at h3 ⊢
          omega
        · rw [blocksGo_gap t rest cur last hlast h1 h2] at hb
          rcases List.mem_cons.mp hb with rfl | hb2
          · simp only [List.length_cons]
            omega
          · have h3 := ih [t] b hb2
            simp only [List.length_singleton, List.length_cons, List.length_nil] at h3 ⊢
            omega

theorem blocksGo_sub_scan (jokers : List Tile) (ts : List Tile) :
    ∀ cur b, b ∈ blocksGo ts cur → 3 ≤ b.length →
      b ∈ (runScanGo jokers ts cur).2 ++
        (if 3 ≤ (runScanGo jokers ts cur).1.length
          then [(runScanGo jokers ts cur).1] else []) := by
  induction ts with
  | nil =>
    intro cur b hb h3
    rw [blocksGo] at hb
    by_cases h : cur.isEmpty
    · rw [if_pos h] at hb
      simp at hb
    · rw [if_neg h] at hb
      simp only [List.mem_singleton] at hb
      subst hb
      simp only [runScanGo]
      rw [if_pos h3]
      simp
  | cons t rest ih =>
    intro cur b hb h3
    cases hlast : cur.getLast? with
    | none =>
      rw [blocksGo_none t rest cur hlast] at hb
      rw [runScanGo_none jokers t rest cur hlast]
      exact ih [t] b hb h3
    | some last =>
      by_cases h1 : t.val = last.val + 1
      · rw [blocksGo_succ t rest cur last hlast h1] at hb
        rw [runScanGo_succ jokers t rest cur last hlast h1]
        exact ih (cur ++ [t]) b hb h3
      · by_cases h2 : t.val = last.val
        · rw [blocksGo_dup t rest cur last hlast h1 h2] at hb
          rw [runScanGo_dup jokers t rest cur last hlast h1 h2]
          exact ih cur b hb h3
        · rw [blocksGo_gap t rest cur last hlast h1 h2] at hb
          rw [runScanGo_gap jokers t rest cur last hlast h1 h2]
          rcases List.mem_cons.mp hb with rfl | hb2
          · apply List.mem_append_left
            apply List.mem_append_right
            apply List.mem_append_left
            rw [if_pos h3]
            simp
          · have hmem := ih [t] b hb2 h3
            rcases List.mem_append.mp hmem with hmes | hmfc
            · apply List.mem_append_left
              apply List.mem_append_right
              apply List.mem_append_right
              exact hmes
            · apply List.mem_append_right
              exact hmfc

theorem c3_group_half (pool : List Tile) (v : Nat) :
    (3 ≤ (firstUniqueByColor (pool.filter (fun t => !t.is_joker && t.val == v))).length →
      (firstUniqueByColor (pool.filter (fun t => !t.is_joker && t.val == v))).take 3 ∈
        find_valid_sets_in_pool pool) ∧
    ((firstUniqueByColor (pool.filter (fun t => !t.is_joker && t.val == v))).length = 4 →
      firstUniqueByColor (pool.filter (fun t => !t.is_joker && t.val == v)) ∈
        find_valid_sets_in_pool pool) := by
  have hul : (firstUniqueByColor (pool.filter (fun t => !t.is_joker && t.val == v))).length ≤
      (pool.filter (fun t => !t.is_joker && t.val == v)).length :=
    firstUniqueByColorGo_length_le _ []
  have hkey : (pool.filter (fun t => !t.is_joker && t.val == v)) ≠ [] → v ∈ valKeys pool := by
    intro hne
    obtain ⟨t, ht⟩ := List.exists_mem_of_ne_nil _ hne
    have hreal : t.is_joker = false ∧ t.val = v := by
      simpa using (List.mem_filter.mp ht).2
    rw [valKeys, mem_dedupF]
    exact List.mem_map.mpr ⟨t,
      List.mem_filter.mpr ⟨(List.mem_filter.mp ht).1, by simp [hreal.1]⟩, hreal.2⟩
  have hne_of : 3 ≤ (firstUniqueByColor
      (pool.filter (fun t => !t.is_joker && t.val == v))).length →
      (pool.filter (fun t => !t.is_joker && t.val == v)) ≠ [] := by
    intro h3 h0
    rw [h0] at h3
    simp [firstUniqueByColor, firstUniqueByColorGo] at h3
  constructor
  · intro h3
    apply groupEmit_mem_output pool v _ (hkey (hne_of h3))
    simp only [groupEmit]
    rw [if_pos (show 3 ≤ (pool.filter (fun t => !t.is_joker && t.val == v)).length +
      (pool.filter (fun t => t.is_joker)).length from by omega)]
    apply List.mem_append_left
    apply List.mem_append_left
    rw [if_pos h3]
    simp
  · intro h4
    have h3 : 3 ≤ (firstUniqueByColor
        (pool.filter (fun t => !t.is_joker && t.val == v))).length := by omega
    apply groupEmit_mem_output pool v _ (hkey (hne_of h3))
    simp only [groupEmit]
    rw [if_pos (show 3 ≤ (pool.filter (fun t => !t.is_joker && t.val == v)).length +
      (pool.filter (fun t => t.is_joker)).length from by omega)]
    apply List.mem_append_left
    apply List.mem_append_right
    rw [if_pos (show ((firstUniqueByColor
      (pool.filter (fun t => !t.is_joker && t.val == v))).length == 4) = true from by
        simpa using h4)]
    rw [List.take_of_length_le (by omega)]
    simp

theorem c3_run_half (pool : List Tile) (c : TColor) (b : List Tile)
    (hb : b ∈ colorBlocks pool c) (h3 : 3 ≤ b.length) :
    b ∈ find_valid_sets_in_pool pool := by
  rw [colorBlocks] at hb
  have hlen : 3 ≤ (sortByVal (pool.filter (fun t => !t.is_joker && t.color == c))).length := by
    have h := blocksGo_length_le _ [] b hb
    simp only [List.length_nil] at h
    omega
  have hfne : pool.filter (fun t => !t.is_joker && t.color == c) ≠ [] := by
    intro h0
    rw [h0] at hlen
    simp [sortByVal] at hlen
  obtain ⟨t, ht⟩ := List.exists_mem_of_ne_nil _ hfne
  have hreal : t.is_joker = false ∧ t.color = c := by
    simpa using (List.mem_filter.mp ht).2
  have hc : c ∈ colorKeys pool := by
    rw [colorKeys, mem_dedupF]
    exact List.mem_map.mpr ⟨t,
      List.mem_filter.mpr ⟨(List.mem_filter.mp ht).1, by simp [hreal.1]⟩, hreal.2⟩
  apply runEmit_mem_output pool c b hc
  simp only [runEmit]
  rw [if_neg (show ¬((decide ((sortByVal (pool.filter
      (fun t => !t.is_joker && t.color == c))).length < 2) &&
      (pool.filter (fun t => t.is_joker)).isEmpty) = true) from by
    simp only [Bool.and_eq_true, decide_eq_true_eq]
    rintro ⟨h2, _⟩
    omega)]
  exact blocksGo_sub_scan (pool.filter (fun t => t.is_joker)) _ [] b hb h3

/-- Claim C3 as amended: for every pool, (i) for each rank bucket with at
least 3 distinct colors the generator emits one 3-tile group of that rank —
the first three distinct-colored tiles in pool order — and, when the bucket
has exactly 4 distinct colors, also that 4-tile group; and (ii) for each
color it emits every MAXIMAL contiguous sub-range of distinct ranks of
length at least 3 (not every 3-combination of colors and not every
contiguous sub-range, which the counterexample refutes). -/
theorem c3_generator_amended (pool : List Tile) :
    (∀ v : Nat,
      (3 ≤ (firstUniqueByColor (pool.filter (fun t => !t.is_joker && t.val == v))).length →
        (firstUniqueByColor (pool.filter (fun t => !t.is_joker && t.val == v))).take 3 ∈
          find_valid_sets_in_pool pool) ∧
      ((firstUniqueByColor (pool.filter (fun t => !t.is_joker && t.val == v))).length = 4 →
        firstUniqueByColor (pool.filter (fun t => !t.is_joker && t.val == v)) ∈
          find_valid_sets_in_pool pool)) ∧
    (∀ c : TColor, ∀ b ∈ colorBlocks pool c, 3 ≤ b.length →
      b ∈ find_valid_sets_in_pool pool) :=
  ⟨fun v => c3_group_half pool v, fun c b hb h3 => c3_run_half pool c b hb h3⟩

/-- Witness for C3's amended theorem on the pool
{R5, B5, K5, O5, R1, R2, R3}: the rank-5 bucket's first 3-combination is
emitted, and the maximal red run [R1, R2, R3] is emitted. -/
theorem c3_generator_amended_witness :
    (firstUniqueByColor (([T .red 5, T .blue 5, T .black 5, T .orange 5,
        T .red 1, T .red 2, T .red 3] : List Tile).filter
        (fun t => !t.is_joker && t.val == 5))).take 3 ∈
      find_valid_sets_in_pool [T .red 5, T .blue 5, T .black 5, T .orange 5,
        T .red 1, T .red 2, T .red 3] ∧
    [T .red 1, T .red 2, T .red 3] ∈
      find_valid_sets_in_pool [T .red 5, T .blue 5, T .black 5, T .orange 5,
        T .red 1, T .red 2, T .red 3] := by
  have h := c3_generator_amended [T .red 5, T .blue 5, T .black 5, T .orange 5,
    T .red 1, T .red 2, T .red 3]
  exact ⟨(h.1 5).1 (by decide),
    h.2 TColor.red [T .red 1, T .red 2, T .red 3] (by decide) (by decide)⟩

/-! ## Claim C8: donor-meld protection in phase 4 -/

theorem sourceGo_rack_eq (rack : List Tile) (loose : List (Tile × Nat)) (t : Tile)
    (ts : List Tile) (availR availL : List Nat) (ur : Bool) (rU lU : List Nat) (i : Nat)
    (h : availR.find? (fun k => pMatch t (rack.getD k JK)) = some i) :
    sourceGo rack loose (t :: ts) availR availL ur rU lU =
      sourceGo rack loose ts (availR.erase i) availL true (rU ++ [i]) lU := by
  rw [sourceGo, h]

theorem sourceGo_loose_eq (rack : List Tile) (loose : List (Tile × Nat)) (t : Tile)
    (ts : List Tile) (availR availL : List Nat) (ur : Bool) (rU lU : List Nat) (i : Nat)
    (h1 : availR.find? (fun k => pMatch t (rack.getD k JK)) = none)
    (h2 : availL.find? (fun k => pMatch (loose.getD k (JK, 0)).1 t) = some i) :
    sourceGo rack loose (t :: ts) availR availL ur rU lU =
      sourceGo rack loose ts availR (availL.erase i) ur rU (lU ++ [i]) := by
  rw [sourceGo, h1, h2]

theorem sourceGo_fail_eq (rack : List Tile) (loose : List (Tile × Nat)) (t : Tile)
    (ts : List Tile) (availR availL : List Nat) (ur : Bool) (rU lU : List Nat)
    (h1 : availR.find? (fun k => pMatch t (rack.getD k JK)) = none)
    (h2 : availL.find? (fun k => pMatch (loose.getD k (JK, 0)).1 t) = none) :
    sourceGo rack loose (t :: ts) availR availL ur rU lU = none := by
  rw [sourceGo, h1, h2]

theorem sourceGo_lUsed_mem (rack : List Tile) (loose : List (Tile × Nat)) (ts : List Tile) :
    ∀ availR availL ur rU lU res,
      sourceGo rack loose ts availR availL ur rU lU = some res →
      ∀ x ∈ res.2.2, x ∈ lU ∨ x ∈ availL := by
  induction ts with
  | nil =>
    intro availR availL ur rU lU res h x hx
    rw [sourceGo] at h
    injection h with h
    subst h
    exact Or.inl hx
  | cons t ts ih =>
    intro availR availL ur rU lU res h x hx
    cases hfr : availR.find? (fun k => pMatch t (rack.getD k JK)) with
    | some i =>
      rw [sourceGo_rack_eq rack loose t ts availR availL ur rU lU i hfr] at h
      exact ih _ _ _ _ _ _ h x hx
    | none =>
      cases hfl : availL.find? (fun k => pMatch (loose.getD k (JK, 0)).1 t) with
      | some i =>
        rw [sourceGo_loose_eq rack loose t ts availR availL ur rU lU i hfr hfl] at h
        rcases ih _ _ _ _ _ _ h x hx with hx1 | hx1
        · rcases List.mem_append.mp hx1 with hx2 | hx2
          · exact Or.inl hx2
          · simp only [List.mem_singleton] at hx2
            subst hx2
            exact Or.inr (List.mem_of_find?_eq_some hfl)
        · exact Or.inr (List.mem_of_mem_erase hx1)
      | none =>
        rw [sourceGo_fail_eq rack loose t ts availR availL ur rU lU hfr hfl] at h
        exact absurd h (by simp)

theorem looseOptions_sources (ms : List (List Tile)) :
    ∀ p ∈ looseOptions ms, p.2 < ms.length ∧ 3 < (ms.getD p.2 []).length := by
  intro p hp
  rw [looseOptions, List.mem_flatten] at hp
  obtain ⟨l, hl, hpl⟩ := hp
  rw [List.mem_map] at hl
  obtain ⟨q, hq, rfl⟩ := hl
  have henum : ms[q.1]? = some q.2 := List.mem_enum_iff_getElem?.mp hq
  have hlt : q.1 < ms.length := by
    by_contra hge
    rw [List.getElem?_eq_none (by omega)] at henum
    exact absurd henum (by simp)
  have hgd : ms.getD q.1 [] = q.2 := by
    rw [List.getD_eq_getElem?_getD, henum]
    rfl
  by_cases h3 : 3 < q.2.length
  · have hsnd : p.2 = q.1 := by
      simp only [] at hpl
      rw [if_pos h3] at hpl
      by_cases hre : (q.2.filter (fun t => !t.is_joker)).isEmpty = true
      · rw [if_pos hre] at hpl
        simp at hpl
      · rw [if_neg hre] at hpl
        by_cases hgr : ((q.2.filter (fun t => !t.is_joker)).map Tile.val).dedup.length == 1
        · rw [if_pos hgr] at hpl
          obtain ⟨t2, _, hback⟩ := List.mem_map.mp hpl
          rw [← hback]
        · rw [if_neg hgr] at hpl
          rcases List.mem_cons.mp hpl with rfl | hpl2
          · rfl
          · simp only [List.mem_singleton] at hpl2
            subst hpl2
            rfl
    rw [hsnd, hgd]
    exact ⟨hlt, h3⟩
  · simp only [] at hpl
    rw [if_neg h3] at hpl
    simp at hpl

theorem erase_length_ge [DecidableEq α] (l : List α) (a : α) :
    l.length ≤ (l.erase a).length + 1 := by
  by_cases h : a ∈ l
  · rw [List.length_erase_of_mem h]
    have := List.length_pos.mpr (List.ne_nil_of_mem h)
    omega
  · rw [List.erase_of_not_mem h]
    omega

theorem p4Remove_length (loose : List (Tile × Nat)) (ms : List (List Tile)) (i : Nat) :
    (p4Remove loose ms i).length = ms.length := by
  rw [p4Remove]
  split
  · rw [List.length_set]
  · rfl

theorem foldRemove_length (loose : List (Tile × Nat)) (L : List Nat) :
    ∀ ms, (L.foldl (p4Remove loose) ms).length = ms.length := by
  induction L with
  | nil => intro ms; rfl
  | cons i L ih =>
    intro ms
    rw [List.foldl_cons, ih, p4Remove_length]

theorem p4Remove_getD_ne (loose : List (Tile × Nat)) (ms : List (List Tile)) (i j : Nat)
    (h : (loose.getD i (JK, 0)).2 ≠ j) :
    (p4Remove loose ms i).getD j [] = ms.getD j [] := by
  rw [p4Remove]
  split
  · rw [List.getD_eq_getElem?_getD, List.getElem?_set_ne h, ← List.getD_eq_getElem?_getD]
  · rfl

theorem foldRemove_getD_ne (loose : List (Tile × Nat)) (L : List Nat) (j : Nat)
    (h : ∀ i ∈ L, (loose.getD i (JK, 0)).2 ≠ j) :
    ∀ ms, (L.foldl (p4Remove loose) ms).getD j [] = ms.getD j [] := by
  induction L with
  | nil => intro ms; rfl
  | cons i L ih =>
    intro ms
    rw [List.foldl_cons, ih (fun k hk => h k (List.mem_cons_of_mem i hk)),
      p4Remove_getD_ne loose ms i j (h i (List.mem_cons_self i L))]

theorem getD_set_lt (ms : List (List Tile)) (j : Nat) (x : List Tile)
    (hj : j < ms.length) : (ms.set j x).getD j [] = x := by
  rw [List.getD_eq_getElem?_getD, List.getElem?_set_eq_of_lt x hj]
  rfl

theorem p4Remove_getD_length (loose : List (Tile × Nat)) (ms : List (List Tile))
    (i j : Nat) :
    (ms.getD j []).length ≤ ((p4Remove loose ms i).getD j []).length + 1 := by
  by_cases hij : (loose.getD i (JK, 0)).2 = j
  · rw [p4Remove]
    split
    · rw [hij]
      by_cases hj : j < ms.length
      · rw [getD_set_lt ms j _ hj]
        exact erase_length_ge _ _
      · rw [List.getD_eq_default _ _ (show ms.length ≤ j from by omega)]
        simp
    · omega
  · rw [p4Remove_getD_ne loose ms i j hij]
    omega

theorem foldRemove_getD_length (loose : List (Tile × Nat)) (L : List Nat) (j : Nat) :
    ∀ ms, (ms.getD j []).length ≤
      ((L.foldl (p4Remove loose) ms).getD j []).length + (p4srcs loose L).count j := by
  induction L with
  | nil =>
    intro ms
    simp [p4srcs]
  | cons i L ih =>
    intro ms
    rw [List.foldl_cons]
    have hstep := p4Remove_getD_length loose ms i j
    have hrec := ih (p4Remove loose ms i)
    have hcount : (p4srcs loose (i :: L)).count j =
        (p4srcs loose L).count j +
          (if ((loose.getD i (JK, 0)).2 == j) = true then 1 else 0) := by
      rw [p4srcs, List.map_cons, List.count_cons, p4srcs]
    by_cases hij : (loose.getD i (JK, 0)).2 = j
    · rw [hcount, if_pos (by simpa using hij)]
      omega
    · rw [hcount, if_neg (by simpa using hij)]
      rw [p4Remove_getD_ne loose ms i j hij] at hrec
      omega

theorem phase4Step_eq_none (loose : List (Tile × Nat)) (acc : P4Acc) (cand : List Tile)
    (h : sourceGo acc.rack loose cand (List.range acc.rack.length)
      (List.range loose.length) false [] [] = none) :
    phase4Step loose acc cand = acc := by
  rw [phase4Step, h]

theorem phase4Step_eq_some (loose : List (Tile × Nat)) (acc : P4Acc) (cand : List Tile)
    (ur : Bool) (rU lU : List Nat)
    (h : sourceGo acc.rack loose cand (List.range acc.rack.length)
      (List.range loose.length) false [] [] = some (ur, rU, lU)) :
    phase4Step loose acc cand =
      (if ur then
        (if p4safe loose acc lU then
          { damage := fun s => acc.damage s + (p4srcs loose lU).count s
            rack := (sortDesc rU).foldl (fun r i => r.eraseIdx i) acc.rack
            melds := lU.foldl (p4Remove loose) acc.melds
            news := acc.news ++ [cand] }
        else acc)
      else acc) := by
  rw [phase4Step, h]

theorem phase4Step_inv (loose : List (Tile × Nat)) (melds0 : List (List Tile))
    (hlo : ∀ p ∈ loose, p.2 < melds0.length ∧ 3 < (melds0.getD p.2 []).length)
    (acc : P4Acc) (cand : List Tile)
    (hlen : acc.melds.length = melds0.length)
    (hinv : ∀ j, ((melds0.getD j []).length ≤ 3 →
        acc.melds.getD j [] = melds0.getD j []) ∧
      (3 < (melds0.getD j []).length → 3 ≤ (acc.melds.getD j []).length)) :
    (phase4Step loose acc cand).melds.length = melds0.length ∧
    ∀ j, ((melds0.getD j []).length ≤ 3 →
        (phase4Step loose acc cand).melds.getD j [] = melds0.getD j []) ∧
      (3 < (melds0.getD j []).length →
        3 ≤ ((phase4Step loose acc cand).melds.getD j []).length) := by
  cases hsg : sourceGo acc.rack loose cand (List.range acc.rack.length)
      (List.range loose.length) false [] [] with
  | none =>
    rw [phase4Step_eq_none loose acc cand hsg]
    exact ⟨hlen, hinv⟩
  | some res =>
    obtain ⟨ur, rU, lU⟩ := res
    rw [phase4Step_eq_some loose acc cand ur rU lU hsg]
    cases ur with
    | false =>
      rw [if_neg (by simp)]
      exact ⟨hlen, hinv⟩
    | true =>
      rw [if_pos rfl]
      by_cases hsafe : p4safe loose acc lU = true
      · rw [if_pos hsafe]
        have hlU : ∀ x ∈ lU, x < loose.length := by
          intro x hx
          have := sourceGo_lUsed_mem acc.rack loose cand _ _ _ _ _ _ hsg x hx
          rcases this with h0 | h0
          · simp at h0
          · exact List.mem_range.mp h0
        have hsrc : ∀ x ∈ lU, ((loose.getD x (JK, 0)).2 < melds0.length ∧
            3 < (melds0.getD (loose.getD x (JK, 0)).2 []).length) := by
          intro x hx
          have hxl := hlU x hx
          have hmem : loose.getD x (JK, 0) ∈ loose := by
            rw [List.getD_eq_getElem _ _ hxl]
            exact List.getElem_mem hxl
          exact hlo _ hmem
        constructor
        · show (lU.foldl (p4Remove loose) acc.melds).length = melds0.length
          rw [foldRemove_length, hlen]
        · intro j
          constructor
          · intro hle
            show (lU.foldl (p4Remove loose) acc.melds).getD j [] = melds0.getD j []
            rw [foldRemove_getD_ne loose lU j
              (fun i hi => fun heq => by
                have := (hsrc i hi).2
                rw [heq] at this
                omega)]
            exact (hinv j).1 hle
          · intro hgt
            show 3 ≤ ((lU.foldl (p4Remove loose) acc.melds).getD j []).length
            by_cases hjin : j ∈ p4srcs loose lU
            · have hguard := List.all_eq_true.mp hsafe j (mem_dedupF _ j |>.mpr hjin)
              rw [decide_eq_true_eq] at hguard
              have hbound := foldRemove_getD_length loose lU j acc.melds
              omega
            · rw [foldRemove_getD_ne loose lU j
                (fun i hi => fun heq => hjin (by
                  rw [← heq]
                  exact List.mem_map_of_mem _ hi))]
              exact (hinv j).2 hgt
      · rw [if_neg hsafe]
        exact ⟨hlen, hinv⟩

theorem phase4Fold_inv (loose : List (Tile × Nat)) (melds0 : List (List Tile))
    (hlo : ∀ p ∈ loose, p.2 < melds0.length ∧ 3 < (melds0.getD p.2 []).length)
    (cands : List (List Tile)) :
    ∀ acc : P4Acc, acc.melds.length = melds0.length →
      (∀ j, ((melds0.getD j []).length ≤ 3 →
          acc.melds.getD j [] = melds0.getD j []) ∧
        (3 < (melds0.getD j []).length → 3 ≤ (acc.melds.getD j []).length)) →
      (cands.foldl (phase4Step loose) acc).melds.length = melds0.length ∧
      ∀ j, ((melds0.getD j []).length ≤ 3 →
          (cands.foldl (phase4Step loose) acc).melds.getD j [] = melds0.getD j []) ∧
        (3 < (melds0.getD j []).length →
          3 ≤ ((cands.foldl (phase4Step loose) acc).melds.getD j []).length) := by
  induction cands with
  | nil => intro acc h1 h2; exact ⟨h1, h2⟩
  | cons cand cands ih =>
    intro acc h1 h2
    rw [List.foldl_cons]
    have hstep := phase4Step_inv loose melds0 hlo acc cand h1 h2
    exact ih (phase4Step loose acc cand) hstep.1 hstep.2

theorem getD_map_sortT (melds : List (List Tile)) (i : Nat) (hi : i < melds.length) :
    (melds.map sortT).getD i [] = sortT (melds.getD i []) := by
  rw [List.getD_eq_getElem?_getD, List.getElem?_map, List.getD_eq_getElem?_getD,
    List.getElem?_eq_getElem hi]
  rfl

/-- Claim C8: in phase 4, every loose-tile option is drawn from a board
meld of size strictly greater than 3 (a size-3 meld never donates); melds
of size at most 3 come out of the phase with exactly their (sorted) tiles;
and every meld of size greater than 3 retains at least 3 tiles after all
removals of the pass. -/
theorem c8_donor_protection (rack : List Tile) (melds : List (List Tile)) (i : Nat)
    (hi : i < melds.length) :
    (∀ p ∈ looseOptions (melds.map sortT),
      3 < (((melds.map sortT)).getD p.2 []).length) ∧
    ((phase_loose_tile_scavenging rack melds).2.1).length = melds.length ∧
    ((melds.getD i []).length ≤ 3 →
      (phase_loose_tile_scavenging rack melds).2.1.getD i [] = sortT (melds.getD i [])) ∧
    (3 < (melds.getD i []).length →
      3 ≤ ((phase_loose_tile_scavenging rack melds).2.1.getD i []).length) := by
  have hlo := looseOptions_sources (melds.map sortT)
  have hlen0 : ∀ k : Nat, k < melds.length →
      ((melds.map sortT).getD k []).length = (melds.getD k []).length := by
    intro k hk
    rw [getD_map_sortT melds k hk]
    exact (sortT_perm _).length_eq
  refine ⟨fun p hp => (hlo p hp).2, ?_⟩
  by_cases hle : ((looseOptions (melds.map sortT)).isEmpty = true)
  · have hres : (phase_loose_tile_scavenging rack melds).2.1 = melds.map sortT := by
      simp only [phase_loose_tile_scavenging]
      rw [if_pos hle]
    rw [hres]
    refine ⟨List.length_map melds sortT, fun hle3 => getD_map_sortT melds i hi, fun hgt => ?_⟩
    rw [getD_map_sortT melds i hi]
    rw [(sortT_perm _).length_eq]
    omega
  · have hres : (phase_loose_tile_scavenging rack melds).2.1 =
        ((sortByLenDesc (find_valid_sets_in_pool
          (rack ++ (looseOptions (melds.map sortT)).map Prod.fst))).foldl
          (phase4Step (looseOptions (melds.map sortT)))
          ⟨fun _ => 0, rack, melds.map sortT, []⟩).melds := by
      simp only [phase_loose_tile_scavenging]
      rw [if_neg hle]
    rw [hres]
    have hfold := phase4Fold_inv (looseOptions (melds.map sortT)) (melds.map sortT) hlo
      (sortByLenDesc (find_valid_sets_in_pool
        (rack ++ (looseOptions (melds.map sortT)).map Prod.fst)))
      ⟨fun _ => 0, rack, melds.map sortT, []⟩ rfl
      (fun j => ⟨fun _ => rfl, fun h => by
        show 3 ≤ ((melds.map sortT).getD j []).length
        omega⟩)
    refine ⟨by rw [hfold.1, List.length_map], ?_, ?_⟩
    · intro hle3
      rw [(hfold.2 i).1 (by rw [hlen0 i hi]; exact hle3)]
      exact getD_map_sortT melds i hi
    · intro hgt
      exact (hfold.2 i).2 (by rw [hlen0 i hi]; exact hgt)

/-- Witness for C8 on a concrete board: a size-4 group donor and a size-3
run; after the phase the size-3 meld is untouched and the donor keeps at
least 3 tiles. -/
theorem c8_donor_protection_witness :
    ((phase_loose_tile_scavenging [T .red 3, T .red 5]
        [[T .red 4, T .blue 4, T .orange 4, T .black 4],
         [T .blue 1, T .blue 2, T .blue 3]]).2.1).length = 2 ∧
    ((phase_loose_tile_scavenging [T .red 3, T .red 5]
        [[T .red 4, T .blue 4, T .orange 4, T .black 4],
         [T .blue 1, T .blue 2, T .blue 3]]).2.1.getD 1 [] =
      sortT [T .blue 1, T .blue 2, T .blue 3]) ∧
    3 ≤ ((phase_loose_tile_scavenging [T .red 3, T .red 5]
        [[T .red 4, T .blue 4, T .orange 4, T .black 4],
         [T .blue 1, T .blue 2, T .blue 3]]).2.1.getD 0 []).length := by
  have h0 := c8_donor_protection [T .red 3, T .red 5]
    [[T .red 4, T .blue 4, T .orange 4, T .black 4],
     [T .blue 1, T .blue 2, T .blue 3]] 0 (by decide)
  have h1 := c8_donor_protection [T .red 3, T .red 5]
    [[T .red 4, T .blue 4, T .orange 4, T .black 4],
     [T .blue 1, T .blue 2, T .blue 3]] 1 (by decide)
  exact ⟨h0.2.1, h1.2.2.1 (by decide), h0.2.2.2 (by decide)⟩

/-! ## Claim C7: frame lemmas over the store -/

theorem store_set_getD_ne (σ : Store) (k r : Nat) (v : List Tile) (h : k ≠ r) :
    (σ.set k v).getD r [] = σ.getD r [] := by
  rw [List.getD_eq_getElem?_getD, List.getElem?_set_ne h, ← List.getD_eq_getElem?_getD]

theorem store_append_getD (σ vs : Store) (r : Nat) (h : r < σ.length) :
    (σ ++ vs).getD r [] = σ.getD r [] := by
  rw [List.getD_eq_getElem?_getD, List.getElem?_append, if_pos h,
    ← List.getD_eq_getElem?_getD]

theorem phase_joker_retrievalH_frame (mrefs : List Nat) (r : Nat) (h : r ∉ mrefs) :
    ∀ σ rack, ((phase_joker_retrievalH σ rack mrefs).1).getD r [] = σ.getD r [] ∧
      ((phase_joker_retrievalH σ rack mrefs).1).length = σ.length := by
  induction mrefs with
  | nil => intro σ rack; exact ⟨rfl, rfl⟩
  | cons rf rest ih =>
    intro σ rack
    have hr : r ∉ rest := fun hm => h (List.mem_cons_of_mem rf hm)
    have hne : rf ≠ r := fun he => h (he ▸ List.mem_cons_self rf rest)
    have heq : phase_joker_retrievalH σ rack (rf :: rest) =
        phase_joker_retrievalH (σ.set rf (phase1Meld rack (σ.getD rf [])).2)
          (phase1Meld rack (σ.getD rf [])).1 rest := rfl
    rw [heq]
    obtain ⟨h1, h2⟩ := ih hr (σ.set rf (phase1Meld rack (σ.getD rf [])).2)
      (phase1Meld rack (σ.getD rf [])).1
    refine ⟨?_, ?_⟩
    · rw [h1, store_set_getD_ne σ rf r _ hne]
    · rw [h2, List.length_set]

theorem tryMeldsH_frame (tile : Tile) (mrefs : List Nat) (r : Nat) (h : r ∉ mrefs) :
    ∀ σ, ((tryMeldsH σ tile mrefs).1).getD r [] = σ.getD r [] ∧
      ((tryMeldsH σ tile mrefs).1).length = σ.length := by
  induction mrefs with
  | nil => intro σ; exact ⟨rfl, rfl⟩
  | cons rf rest ih =>
    intro σ
    have hr : r ∉ rest := fun hm => h (List.mem_cons_of_mem rf hm)
    have hne : rf ≠ r := fun he => h (he ▸ List.mem_cons_self rf rest)
    simp only [tryMeldsH]
    by_cases hc : can_extend (σ.getD rf []) tile = true
    · rw [if_pos hc]
      by_cases hv : (meldCheck (sortT (σ.getD rf [] ++ [tile]))).1 = true
      · rw [if_pos hv]
        exact ⟨store_set_getD_ne σ rf r _ hne, List.length_set σ rf _⟩
      · rw [if_neg hv]
        obtain ⟨h1, h2⟩ := ih hr (σ.set rf
          ((meldCheck (sortT (σ.getD rf [] ++ [tile]))).2.erase tile))
        refine ⟨?_, ?_⟩
        · rw [h1, store_set_getD_ne σ rf r _ hne]
        · rw [h2, List.length_set]
    · rw [if_neg hc]
      exact ih hr σ

theorem phase3GoH_none (k : Nat) (σ : Store) (rack : List Tile) (mrefs : List Nat)
    (hget : rack.get? k = none) :
    phase3GoH (k + 1) σ rack mrefs = phase3GoH k σ rack mrefs := by
  rw [phase3GoH, hget]

theorem phase3GoH_some (k : Nat) (σ : Store) (rack : List Tile) (mrefs : List Nat)
    (tile : Tile) (hget : rack.get? k = some tile) :
    phase3GoH (k + 1) σ rack mrefs =
      (if (tryMeldsH σ tile mrefs).2 = true
        then phase3GoH k (tryMeldsH σ tile mrefs).1 (rack.eraseIdx k) mrefs
        else phase3GoH k (tryMeldsH σ tile mrefs).1 rack mrefs) := by
  rw [phase3GoH, hget]

theorem phase3GoH_frame (mrefs : List Nat) (r : Nat) (h : r ∉ mrefs) :
    ∀ k σ rack, ((phase3GoH k σ rack mrefs).1).getD r [] = σ.getD r [] ∧
      ((phase3GoH k σ rack mrefs).1).length = σ.length := by
  intro k
  induction k with
  | zero => intro σ rack; exact ⟨rfl, rfl⟩
  | succ k ih =>
    intro σ rack
    cases hget : rack.get? k with
    | none =>
      rw [phase3GoH_none k σ rack mrefs hget]
      exact ih σ rack
    | some tile =>
      rw [phase3GoH_some k σ rack mrefs tile hget]
      obtain ⟨ht1, ht2⟩ := tryMeldsH_frame tile mrefs r h σ
      by_cases hp : (tryMeldsH σ tile mrefs).2 = true
      · rw [if_pos hp]
        obtain ⟨h1, h2⟩ := ih (tryMeldsH σ tile mrefs).1 (rack.eraseIdx k)
        exact ⟨h1.trans ht1, h2.trans ht2⟩
      · rw [if_neg hp]
        obtain ⟨h1, h2⟩ := ih (tryMeldsH σ tile mrefs).1 rack
        exact ⟨h1.trans ht1, h2.trans ht2⟩

theorem looseOptionsH_tags (σ : Store) (mrefs : List Nat) :
    ∀ p ∈ looseOptionsH σ mrefs, p.2 ∈ mrefs := by
  intro p hp
  rw [looseOptionsH, List.mem_flatten] at hp
  obtain ⟨l, hl, hpl⟩ := hp
  rw [List.mem_map] at hl
  obtain ⟨rf, hrf, rfl⟩ := hl
  simp only [] at hpl
  by_cases h3 : 3 < (σ.getD rf []).length
  · rw [if_pos h3] at hpl
    by_cases hre : ((σ.getD rf []).filter (fun t => !t.is_joker)).isEmpty = true
    · rw [if_pos hre] at hpl
      simp at hpl
    · rw [if_neg hre] at hpl
      by_cases hgr : (((σ.getD rf []).filter (fun t => !t.is_joker)).map
          Tile.val).dedup.length == 1
      · rw [if_pos hgr] at hpl
        obtain ⟨t2, _, hback⟩ := List.mem_map.mp hpl
        rw [← hback]
        exact hrf
      · rw [if_neg hgr] at hpl
        rcases List.mem_cons.mp hpl with rfl | hpl2
        · exact hrf
        · simp only [List.mem_singleton] at hpl2
          subst hpl2
          exact hrf
  · rw [if_neg h3] at hpl
    simp at hpl

theorem phase4Step_frame (loose : List (Tile × Nat)) (acc : P4Acc) (cand : List Tile)
    (r : Nat) (h : ∀ p ∈ loose, p.2 ≠ r) :
    (phase4Step loose acc cand).melds.getD r [] = acc.melds.getD r [] ∧
    (phase4Step loose acc cand).melds.length = acc.melds.length := by
  cases hsg : sourceGo acc.rack loose cand (List.range acc.rack.length)
      (List.range loose.length) false [] [] with
  | none =>
    rw [phase4Step_eq_none loose acc cand hsg]
    exact ⟨rfl, rfl⟩
  | some res =>
    obtain ⟨ur, rU, lU⟩ := res
    rw [phase4Step_eq_some loose acc cand ur rU lU hsg]
    cases ur with
    | false =>
      rw [if_neg (by simp)]
      exact ⟨rfl, rfl⟩
    | true =>
      rw [if_pos rfl]
      by_cases hsafe : p4safe loose acc lU = true
      · rw [if_pos hsafe]
        have hlU : ∀ x ∈ lU, x < loose.length := by
          intro x hx
          rcases sourceGo_lUsed_mem acc.rack loose cand _ _ _ _ _ _ hsg x hx with h0 | h0
          · simp at h0
          · exact List.mem_range.mp h0
        have hne : ∀ i ∈ lU, (loose.getD i (JK, 0)).2 ≠ r := by
          intro i hi
          have hxl := hlU i hi
          have hmem : loose.getD i (JK, 0) ∈ loose := by
            rw [List.getD_eq_getElem _ _ hxl]
            exact List.getElem_mem hxl
          exact h _ hmem
        exact ⟨foldRemove_getD_ne loose lU r hne acc.melds, foldRemove_length loose lU acc.melds⟩
      · rw [if_neg hsafe]
        exact ⟨rfl, rfl⟩

theorem phase4Fold_frame (loose : List (Tile × Nat)) (cands : List (List Tile))
    (r : Nat) (h : ∀ p ∈ loose, p.2 ≠ r) :
    ∀ acc : P4Acc, (cands.foldl (phase4Step loose) acc).melds.getD r [] =
        acc.melds.getD r [] ∧
      (cands.foldl (phase4Step loose) acc).melds.length = acc.melds.length := by
  induction cands with
  | nil => intro acc; exact ⟨rfl, rfl⟩
  | cons cand cands ih =>
    intro acc
    rw [List.foldl_cons]
    obtain ⟨h1, h2⟩ := phase4Step_frame loose acc cand r h
    obtain ⟨h3, h4⟩ := ih (phase4Step loose acc cand)
    exact ⟨h3.trans h1, h4.trans h2⟩

theorem foldSort_frame (mrefs : List Nat) (r : Nat) (h : r ∉ mrefs) :
    ∀ σ : Store, ((mrefs.foldl (fun s k => s.set k (sortT (s.getD k []))) σ)).getD r [] =
        σ.getD r [] ∧
      ((mrefs.foldl (fun s k => s.set k (sortT (s.getD k []))) σ)).length = σ.length := by
  induction mrefs with
  | nil => intro σ; exact ⟨rfl, rfl⟩
  | cons rf rest ih =>
    intro σ
    have hr : r ∉ rest := fun hm => h (List.mem_cons_of_mem rf hm)
    have hne : rf ≠ r := fun he => h (he ▸ List.mem_cons_self rf rest)
    rw [List.foldl_cons]
    obtain ⟨h1, h2⟩ := ih hr (σ.set rf (sortT (σ.getD rf [])))
    refine ⟨?_, ?_⟩
    · rw [h1, store_set_getD_ne σ rf r _ hne]
    · rw [h2, List.length_set]

theorem phase4H_frame (mrefs : List Nat) (r : Nat) (h : r ∉ mrefs) (σ : Store)
    (rack : List Tile) :
    ((phase4H σ rack mrefs).1).getD r [] = σ.getD r [] ∧
    ((phase4H σ rack mrefs).1).length = σ.length := by
  simp only [phase4H]
  obtain ⟨hs1, hs2⟩ := foldSort_frame mrefs r h σ
  by_cases hle : (looseOptionsH (mrefs.foldl (fun s k => s.set k (sortT (s.getD k []))) σ)
      mrefs).isEmpty = true
  · rw [if_pos hle]
    exact ⟨hs1, hs2⟩
  · rw [if_neg hle]
    have htags : ∀ p ∈ looseOptionsH
        (mrefs.foldl (fun s k => s.set k (sortT (s.getD k []))) σ) mrefs, p.2 ≠ r :=
      fun p hp he => h (he ▸ looseOptionsH_tags _ mrefs p hp)
    obtain ⟨h1, h2⟩ := phase4Fold_frame _ _ r htags
      ⟨fun _ => 0, rack, mrefs.foldl (fun s k => s.set k (sortT (s.getD k []))) σ, []⟩
    exact ⟨h1.trans hs1, h2.trans hs2⟩

/-- Claim C7: `find_best_move` leaves every caller-owned cell unchanged.
In the heap model, every cell that exists before the call — the caller's
rack tile list and the tile list of every board meld among them — holds
the same tiles in the same order after the call, whether or not a move is
returned: the phases write only through the fresh refs allocated for the
working copies. -/
theorem c7_find_best_move_frame (σ : Store) (rackRef : Nat) (meldRefs : List Nat)
    (r : Nat) (hr : r < σ.length) :
    ((find_best_moveH σ rackRef meldRefs).1).getD r [] = σ.getD r [] := by
  simp only [find_best_moveH]
  set copies := meldRefs.map (fun k => σ.getD k []) with hcopies
  set σ1 := σ ++ copies with hσ1
  set copyRefs := List.range' σ.length copies.length with hcrefs
  set p1 := phase_joker_retrievalH σ1 (σ.getD rackRef []) copyRefs with hp1
  set p2 := phase_rack_only p1.2 with hp2
  set a2 := allocMany p1.1 p2.2 with ha2
  set refs2 := copyRefs ++ a2.2 with hrefs2
  set p3 := phase_extensionsH a2.1 p2.1 refs2 with hp3
  set p4 := phase4H p3.1 p3.2 refs2 with hp4
  set a4 := allocMany p4.1 p4.2.2 with ha4
  have hcr : r ∉ copyRefs := by
    rw [hcrefs]
    intro hm
    have := List.mem_range'_1.mp hm
    omega
  have hσ1get : σ1.getD r [] = σ.getD r [] := by
    rw [hσ1]
    exact store_append_getD σ copies r hr
  have hσ1len : σ.length ≤ σ1.length := by
    rw [hσ1]
    simp
  have f1 := phase_joker_retrievalH_frame copyRefs r hcr σ1 (σ.getD rackRef [])
  rw [← hp1] at f1
  have hp1len : σ.length ≤ p1.1.length := by
    rw [f1.2]
    exact hσ1len
  have ha2get : a2.1.getD r [] = p1.1.getD r [] := by
    rw [ha2]
    exact store_append_getD p1.1 p2.2 r (by omega)
  have ha2len : σ.length ≤ a2.1.length := by
    rw [ha2]
    simp only [allocMany, List.length_append]
    omega
  have hra2 : r ∉ a2.2 := by
    rw [ha2]
    simp only [allocMany]
    intro hm
    have := List.mem_range'_1.mp hm
    omega
  have hrr2 : r ∉ refs2 := by
    rw [hrefs2]
    intro hm
    rcases List.mem_append.mp hm with hm1 | hm1
    · exact hcr hm1
    · exact hra2 hm1
  have f3 := phase3GoH_frame refs2 r hrr2 p2.1.length a2.1 p2.1
  have hp3eq : p3 = phase3GoH p2.1.length a2.1 p2.1 refs2 := by
    rw [hp3]
    rfl
  rw [← hp3eq] at f3
  have hp3len : σ.length ≤ p3.1.length := by
    rw [f3.2]
    exact ha2len
  have f4 := phase4H_frame refs2 r hrr2 p3.1 p3.2
  rw [← hp4] at f4
  have hp4len : σ.length ≤ p4.1.length := by
    rw [f4.2]
    exact hp3len
  have ha4get : a4.1.getD r [] = p4.1.getD r [] := by
    rw [ha4]
    exact store_append_getD p4.1 p4.2.2 r (by omega)
  have hchain : a4.1.getD r [] = σ.getD r [] := by
    rw [ha4get, f4.1, f3.1, ha2get, f1.1, hσ1get]
  by_cases hmv : p4.2.1.length < (σ.getD rackRef []).length
  · rw [if_pos hmv]
    exact hchain
  · rw [if_neg hmv]
    exact hchain

/-- Witness for C7 on a concrete arena: the caller's rack cell (ref 0) and
meld cells (refs 1, 2) are unchanged by the call, although a move is
found. -/
theorem c7_find_best_move_frame_witness :
    ((find_best_moveH
        [[T .red 6], [T .red 5, JK, T .red 6], [T .blue 1, T .blue 2, T .blue 3]]
        0 [1, 2]).1).getD 0 [] = [T .red 6] ∧
    ((find_best_moveH
        [[T .red 6], [T .red 5, JK, T .red 6], [T .blue 1, T .blue 2, T .blue 3]]
        0 [1, 2]).1).getD 1 [] = [T .red 5, JK, T .red 6] ∧
    ((find_best_moveH
        [[T .red 6], [T .red 5, JK, T .red 6], [T .blue 1, T .blue 2, T .blue 3]]
        0 [1, 2]).1).getD 2 [] = [T .blue 1, T .blue 2, T .blue 3] ∧
    ((find_best_moveH
        [[T .red 6], [T .red 5, JK, T .red 6], [T .blue 1, T .blue 2, T .blue 3]]
        0 [1, 2]).2).isSome = true := by
  refine ⟨?_, ?_, ?_, by decide⟩
  · exact c7_find_best_move_frame
      [[T .red 6], [T .red 5, JK, T .red 6], [T .blue 1, T .blue 2, T .blue 3]]
      0 [1, 2] 0 (by decide)
  · exact c7_find_best_move_frame
      [[T .red 6], [T .red 5, JK, T .red 6], [T .blue 1, T .blue 2, T .blue 3]]
      0 [1, 2] 1 (by decide)
  · exact c7_find_best_move_frame
      [[T .red 6], [T .red 5, JK, T .red 6], [T .blue 1, T .blue 2, T .blue 3]]
      0 [1, 2] 2 (by decide)
